import Mathlib

/-!
# Verification of the LRU cache (`src/data-structures/cache/LRU.ts`)

This file gives a shallow embedding of the TypeScript `LRUCache<T>` class and
proves the specification claims about it.

The TypeScript implementation keeps a `Map<number, LRUNode<T>>` from keys to
mutable node objects, and a doubly linked list of those nodes bounded by two
sentinel nodes (`head` and `tail`).  We model the mutable object graph with an
explicit heap: nodes are addressed by natural-number ids, the heap is an
association list from ids to node records, and each TypeScript field mutation
becomes a functional update of the heap.  `new LRUNode(...)` allocates a fresh
id (`nextId`).  JavaScript `Map` operations (`get`, `set`, `delete`, `size`)
are modelled on an association list from keys to node ids.

Keys are `Int` (TypeScript `number` keys, used only for equality) and the
stored value type `T` is a parameter; the sentinels' `null!` value is modelled
by `default` of an `Inhabited` instance (it is never read).
-/

/-- JavaScript `Map.get`: first binding of the key, if any. -/
def mapGet {α β : Type} [DecidableEq α] : List (α × β) → α → Option β
  | [], _ => none
  | (a, b) :: rest, x => if a = x then some b else mapGet rest x

/-- JavaScript `Map.set`: overwrite the binding in place if the key is
present, otherwise append a new binding (insertion order is preserved). -/
def mapSet {α β : Type} [DecidableEq α] : List (α × β) → α → β → List (α × β)
  | [], k, v => [(k, v)]
  | (a, b) :: rest, k, v =>
      if a = k then (k, v) :: rest else (a, b) :: mapSet rest k v

/-- JavaScript `Map.delete`: remove the binding of the key, if present. -/
def mapDelete {α β : Type} [DecidableEq α] : List (α × β) → α → List (α × β)
  | [], _ => []
  | (a, b) :: rest, k => if a = k then rest else (a, b) :: mapDelete rest k

/-- `class LRUNode<T>`: a node of the doubly linked list.  `prev`/`next` are
nullable references to other nodes, modelled as optional heap ids. -/
structure LRUNode (T : Type) where
  key : Int
  value : T
  prev : Option Nat
  next : Option Nat
deriving DecidableEq, Repr

/-- `class LRUCache<T>`: `capacity`, the key→node map `cache`, and the two
sentinel nodes `head` and `tail`.  `nodes` is the heap of allocated node
objects and `nextId` the next fresh address. -/
structure LRUCache (T : Type) where
  capacity : Int
  cache : List (Int × Nat)
  nodes : List (Nat × LRUNode T)
  head : Nat
  tail : Nat
  nextId : Nat
deriving DecidableEq, Repr

namespace LRUCache

variable {T : Type}

/-- Dereference a node id in the heap. -/
def nodeAt (c : LRUCache T) (id : Nat) : Option (LRUNode T) :=
  mapGet c.nodes id

/-- Mutate the node stored at `id` (a TypeScript field assignment on the
object `id` points to). -/
def updNode (c : LRUCache T) (id : Nat) (f : LRUNode T → LRUNode T) :
    LRUCache T :=
  { c with nodes := c.nodes.map fun p => if p.1 = id then (p.1, f p.2) else p }

/-- The `constructor(capacity)`: empty map, two fresh sentinel nodes with
`key = 0` and `value = null!`, linked `head.next = tail`, `tail.prev = head`.
The sentinels get heap ids 0 and 1. -/
def init (T : Type) [Inhabited T] (capacity : Int) : LRUCache T :=
  { capacity := capacity
    cache := []
    nodes := [(0, ⟨0, default, none, some 1⟩), (1, ⟨0, default, some 0, none⟩)]
    head := 0
    tail := 1
    nextId := 2 }

/-- `removeNode(node)`: reconnect the node's neighbours to each other
(`if (prevNode) prevNode.next = nextNode; if (nextNode) nextNode.prev =
prevNode;`).  The removed node's own links are left untouched, as in the
source. -/
def removeNode (c : LRUCache T) (id : Nat) : LRUCache T :=
  match c.nodeAt id with
  | none => c
  | some n =>
    let c1 := match n.prev with
      | some p => c.updNode p fun m => { m with next := n.next }
      | none => c
    match n.next with
    | some q => c1.updNode q fun m => { m with prev := n.prev }
    | none => c1

/-- `addNode(node)`: splice the node in right after the head sentinel
(`node.prev = head; node.next = head.next; head.next!.prev = node;
head.next = node;`), reading `head.next` before it is reassigned. -/
def addNode (c : LRUCache T) (id : Nat) : LRUCache T :=
  match c.nodeAt c.head with
  | none => c
  | some h =>
    let c1 := c.updNode id fun n => { n with prev := some c.head, next := h.next }
    let c2 := match h.next with
      | some q => c1.updNode q fun m => { m with prev := some id }
      | none => c1
    c2.updNode c.head fun m => { m with next := some id }

/-- `moveToHead(node)`: `removeNode` then `addNode`. -/
def moveToHead (c : LRUCache T) (id : Nat) : LRUCache T :=
  (c.removeNode id).addNode id

/-- `removeLRU()`: detach `tail.prev` and delete its key from the map.  The
source asserts `tail.prev!` non-null; a missing node is modelled as a no-op
(that path is a runtime crash in TypeScript and is unreachable from valid
states). -/
def removeLRU (c : LRUCache T) : LRUCache T :=
  match c.nodeAt c.tail with
  | none => c
  | some t =>
    match t.prev with
    | none => c
    | some lruId =>
      match c.nodeAt lruId with
      | none => (c.removeNode lruId)
      | some lru =>
        let c1 := c.removeNode lruId
        { c1 with cache := mapDelete c1.cache lru.key }

/-- `get(key)`: `null` (here `none`) on a miss; on a hit, `moveToHead` the
node and return its value. -/
def get (c : LRUCache T) (key : Int) : LRUCache T × Option T :=
  match mapGet c.cache key with
  | none => (c, none)
  | some id =>
    let c1 := c.moveToHead id
    (c1, (c1.nodeAt id).map LRUNode.value)

/-- `put(key, value)`: overwrite-and-promote if the key is present, else
allocate a node, register it in the map, splice it in at the head, and evict
the least-recently-used node if `cache.size > capacity`. -/
def put (c : LRUCache T) (key : Int) (value : T) : LRUCache T :=
  match mapGet c.cache key with
  | some id =>
    let c1 := c.updNode id fun n => { n with value := value }
    c1.moveToHead id
  | none =>
    let c1 : LRUCache T :=
      { c with cache := mapSet c.cache key c.nextId
               nodes := c.nodes ++ [(c.nextId, ⟨key, value, none, none⟩)]
               nextId := c.nextId + 1 }
    let c2 := c1.addNode c.nextId
    if (c2.cache.length : Int) > c2.capacity then c2.removeLRU else c2

/-- The `next` field of the node at `id`, if the node exists. -/
def nextOf (c : LRUCache T) (id : Nat) : Option Nat :=
  (c.nodeAt id).bind LRUNode.next

/-- The `prev` field of the node at `id`, if the node exists. -/
def prevOf (c : LRUCache T) (id : Nat) : Option Nat :=
  (c.nodeAt id).bind LRUNode.prev

/-- The `key` field of the node at `id`, if the node exists. -/
def keyOf (c : LRUCache T) (id : Nat) : Option Int :=
  (c.nodeAt id).map LRUNode.key

/-- The `value` field of the node at `id`, if the node exists. -/
def valOf (c : LRUCache T) (id : Nat) : Option T :=
  (c.nodeAt id).map LRUNode.value

end LRUCache

/-! ## Association-list lemmas -/

theorem mapGet_eq_none_iff {α β : Type} [DecidableEq α] {l : List (α × β)}
    {a : α} : mapGet l a = none ↔ a ∉ l.map Prod.fst := by
  induction l with
  | nil => simp [mapGet]
  | cons p rest ih =>
    obtain ⟨x, y⟩ := p
    by_cases h : x = a
    · subst h
      simp [mapGet]
    · have hax : ¬a = x := fun hax => h hax.symm
      simp [mapGet, h, ih, hax]

theorem mapGet_mem {α β : Type} [DecidableEq α] {l : List (α × β)} {a : α}
    {b : β} (h : mapGet l a = some b) : (a, b) ∈ l := by
  induction l with
  | nil => simp [mapGet] at h
  | cons p rest ih =>
    obtain ⟨x, y⟩ := p
    by_cases hx : x = a
    · subst hx
      simp [mapGet] at h
      simp [h]
    · simp [mapGet, hx] at h
      exact List.mem_cons_of_mem _ (ih h)

theorem mapGet_of_mem {α β : Type} [DecidableEq α] {l : List (α × β)} {a : α}
    {b : β} (hn : (l.map Prod.fst).Nodup) (h : (a, b) ∈ l) :
    mapGet l a = some b := by
  induction l with
  | nil => simp at h
  | cons p rest ih =>
    obtain ⟨x, y⟩ := p
    simp only [List.map_cons, List.nodup_cons] at hn
    rcases List.mem_cons.1 h with h1 | h1
    · cases h1
      simp [mapGet]
    · have hax : x ≠ a := by
        intro hxa
        apply hn.1
        rw [hxa]
        exact List.mem_map.2 ⟨(a, b), h1, rfl⟩
      simp [mapGet, hax, ih hn.2 h1]

theorem mapGet_isSome_of_mem_keys {α β : Type} [DecidableEq α]
    {l : List (α × β)} {a : α} (h : a ∈ l.map Prod.fst) :
    (mapGet l a).isSome := by
  cases hg : mapGet l a with
  | some b => rfl
  | none => exact absurd (mapGet_eq_none_iff.1 hg) (not_not.2 h)

theorem mapGet_append {α β : Type} [DecidableEq α] {l₁ l₂ : List (α × β)}
    {a : α} : mapGet (l₁ ++ l₂) a = (mapGet l₁ a).or (mapGet l₂ a) := by
  induction l₁ with
  | nil => simp [mapGet]
  | cons p rest ih =>
    obtain ⟨x, y⟩ := p
    by_cases h : x = a <;> simp [mapGet, h, ih]

theorem mapSet_of_not_mem {α β : Type} [DecidableEq α] {l : List (α × β)}
    {a : α} (h : mapGet l a = none) (b : β) : mapSet l a b = l ++ [(a, b)] := by
  induction l with
  | nil => simp [mapSet]
  | cons p rest ih =>
    obtain ⟨x, y⟩ := p
    by_cases hx : x = a
    · subst hx
      simp [mapGet] at h
    · simp [mapGet, hx] at h
      simp [mapSet, hx, ih h]

theorem mapDelete_sublist {α β : Type} [DecidableEq α] (l : List (α × β))
    (a : α) : (mapDelete l a).Sublist l := by
  induction l with
  | nil => simp [mapDelete]
  | cons p rest ih =>
    obtain ⟨x, y⟩ := p
    by_cases h : x = a
    · simp [mapDelete, h]
    · simpa [mapDelete, h] using List.Sublist.cons₂ (x, y) ih

theorem mem_mapDelete_iff {α β : Type} [DecidableEq α] {l : List (α × β)}
    {a : α} {p : α × β} (hn : (l.map Prod.fst).Nodup) :
    p ∈ mapDelete l a ↔ p ∈ l ∧ p.1 ≠ a := by
  induction l with
  | nil => simp [mapDelete]
  | cons q rest ih =>
    obtain ⟨x, y⟩ := q
    simp only [List.map_cons, List.nodup_cons] at hn
    by_cases h : x = a
    · subst h
      simp only [mapDelete, if_pos rfl]
      constructor
      · intro hp
        refine ⟨List.mem_cons_of_mem _ hp, ?_⟩
        intro hpa
        exact hn.1 (List.mem_map.2 ⟨p, hp, hpa⟩)
      · rintro ⟨hp, hpa⟩
        rcases List.mem_cons.1 hp with h1 | h1
        · exact absurd (by rw [h1]) hpa
        · exact h1
    · simp only [mapDelete, if_neg h, List.mem_cons, ih hn.2]
      constructor
      · rintro (h1 | ⟨h1, h2⟩)
        · exact ⟨Or.inl h1, by simp [h1, h]⟩
        · exact ⟨Or.inr h1, h2⟩
      · rintro ⟨h1 | h1, h2⟩
        · exact Or.inl h1
        · exact Or.inr ⟨h1, h2⟩

theorem mapDelete_length {α β : Type} [DecidableEq α] {l : List (α × β)}
    {a : α} {b : β} (h : mapGet l a = some b) :
    (mapDelete l a).length + 1 = l.length := by
  induction l with
  | nil => simp [mapGet] at h
  | cons p rest ih =>
    obtain ⟨x, y⟩ := p
    by_cases hx : x = a
    · simp [mapDelete, hx]
    · simp [mapGet, hx] at h
      simp [mapDelete, hx, ih h]

theorem mapGet_prefix_cons {α β : Type} [DecidableEq α] {l₁ l₂ : List (α × β)}
    {a : α} {b : β} (h : a ∉ l₁.map Prod.fst) :
    mapGet (l₁ ++ (a, b) :: l₂) a = some b := by
  rw [mapGet_append]
  rw [mapGet_eq_none_iff.2 h]
  simp [mapGet]

theorem mapDelete_prefix_cons {α β : Type} [DecidableEq α]
    {l₁ l₂ : List (α × β)} {a : α} {b : β} (h : a ∉ l₁.map Prod.fst) :
    mapDelete (l₁ ++ (a, b) :: l₂) a = l₁ ++ l₂ := by
  induction l₁ with
  | nil => simp [mapDelete]
  | cons p rest ih =>
    obtain ⟨x, y⟩ := p
    simp only [List.map_cons, List.mem_cons] at h
    push_neg at h
    simp [mapDelete, Ne.symm h.1, ih h.2]

theorem mapGet_upd {α β : Type} [DecidableEq α] (l : List (α × β)) (j i : α)
    (f : β → β) :
    mapGet (l.map fun p => if p.1 = j then (p.1, f p.2) else p) i =
      if i = j then (mapGet l j).map f else mapGet l i := by
  induction l with
  | nil => by_cases h : i = j <;> simp [mapGet, h]
  | cons p rest ih =>
    obtain ⟨x, y⟩ := p
    show mapGet ((if x = j then (x, f y) else (x, y)) ::
      (rest.map fun p => if p.1 = j then (p.1, f p.2) else p)) i = _
    by_cases hxj : x = j
    · rw [if_pos hxj]
      subst hxj
      by_cases hix : x = i
      · subst hix
        simp [mapGet]
      · have h2 : ¬i = x := fun h => hix h.symm
        simp [mapGet, hix, h2, ih]
    · rw [if_neg hxj]
      by_cases hix : x = i
      · subst hix
        simp [mapGet, hxj]
      · simp [mapGet, hxj, hix, ih]

theorem map_fst_upd {α β : Type} [DecidableEq α] (l : List (α × β)) (j : α)
    (f : β → β) :
    (l.map fun p => if p.1 = j then (p.1, f p.2) else p).map Prod.fst =
      l.map Prod.fst := by
  induction l with
  | nil => rfl
  | cons p rest ih =>
    obtain ⟨x, y⟩ := p
    by_cases h : x = j <;> simp [h, ih]

theorem chain'_imp_mem {α : Type} {R S : α → α → Prop} :
    ∀ {l : List α}, (∀ a ∈ l, ∀ b ∈ l, R a b → S a b) → l.Chain' R →
      l.Chain' S := by
  intro l
  induction l with
  | nil => intro _ _; simp
  | cons x rest ih =>
    intro h hc
    cases rest with
    | nil => simp
    | cons y rest2 =>
      rw [List.chain'_cons] at hc ⊢
      refine ⟨h x (by simp) y (by simp) hc.1, ih ?_ hc.2⟩
      intro a ha b hb hr
      exact h a (List.mem_cons_of_mem _ ha) b (List.mem_cons_of_mem _ hb) hr

namespace LRUCache

variable {T : Type}

theorem nodeAt_updNode (c : LRUCache T) (j i : Nat) (f : LRUNode T → LRUNode T) :
    (c.updNode j f).nodeAt i = if i = j then (c.nodeAt j).map f else c.nodeAt i :=
  mapGet_upd c.nodes j i f

/-! ## Structural invariant

`link c a b` says the nodes at `a` and `b` are doubly linked neighbours.
`Chain c L` says the recency sequence, walked from the head sentinel to the
tail sentinel, passes exactly through the (pairwise distinct) entry nodes `L`,
most recently used first, with consistent `prev`/`next` pointers and with the
sentinels as boundary nodes.  `MapOk c L` says the key→node index holds
exactly the entries of `L`, each registered under its node's key.  `HeapOk`
says every allocated id is below the allocation counter (freshness).
`Agrees c L es` reads the keys and values stored in the nodes `L` off as the
entry list `es`, and `Rep c es` packages the whole representation invariant:
the cache `c` is a valid state whose recency-ordered content is `es`. -/

def link (c : LRUCache T) (a b : Nat) : Prop :=
  c.nextOf a = some b ∧ c.prevOf b = some a

instance linkDecidable (c : LRUCache T) : DecidableRel c.link := fun _ _ =>
  decidable_of_iff (_ ∧ _) Iff.rfl

def Chain (c : LRUCache T) (L : List Nat) : Prop :=
  List.Chain' c.link (c.head :: L ++ [c.tail]) ∧
  (c.head :: L ++ [c.tail]).Nodup ∧
  c.prevOf c.head = none ∧
  c.nextOf c.tail = none

def MapOk (c : LRUCache T) (L : List Nat) : Prop :=
  (c.cache.map Prod.fst).Nodup ∧
  (∀ p ∈ c.cache, p.2 ∈ L ∧ c.keyOf p.2 = some p.1) ∧
  ∀ id ∈ L, ∃ p ∈ c.cache, p.2 = id ∧ c.keyOf id = some p.1

def HeapOk (c : LRUCache T) : Prop :=
  ∀ p ∈ c.nodes, p.1 < c.nextId

def Agrees (c : LRUCache T) : List Nat → List (Int × T) → Prop
  | [], [] => True
  | id :: L, e :: es =>
      c.keyOf id = some e.1 ∧ c.valOf id = some e.2 ∧ Agrees c L es
  | _ :: _, [] => False
  | [], _ :: _ => False

instance agreesDecidable [DecidableEq T] (c : LRUCache T) :
    ∀ (L : List Nat) (es : List (Int × T)), Decidable (Agrees c L es)
  | [], [] => .isTrue trivial
  | [], _ :: _ => .isFalse fun h => h
  | _ :: _, [] => .isFalse fun h => h
  | _ :: L, _ :: es =>
      have : Decidable (Agrees c L es) := agreesDecidable c L es
      inferInstanceAs (Decidable (_ ∧ _ ∧ _))

def Rep (c : LRUCache T) (es : List (Int × T)) : Prop :=
  HeapOk c ∧ ∃ L, Chain c L ∧ MapOk c L ∧ Agrees c L es

/-- Abstract model of a cache state: the recency-ordered list of key/value
entries, most recently used first.  `absGet` is what `get` does to that list:
a miss leaves it alone, a hit moves the entry to the front and returns its
value. -/
def absGet (es : List (Int × T)) (k : Int) : List (Int × T) × Option T :=
  match mapGet es k with
  | none => (es, none)
  | some v => ((k, v) :: mapDelete es k, some v)

/-- Abstract model of `put`: overwrite-and-promote on a hit; on a miss,
prepend the new entry and drop the least recently used entry (the last one)
when the size would exceed the capacity. -/
def absPut (cap : Int) (es : List (Int × T)) (k : Int) (v : T) :
    List (Int × T) :=
  match mapGet es k with
  | some _ => (k, v) :: mapDelete es k
  | none =>
      if (es.length : Int) + 1 > cap then ((k, v) :: es).dropLast
      else (k, v) :: es

end LRUCache

namespace LRUCache

variable {T : Type}

/-! ## Frame lemmas: which parts of the state each operation leaves alone -/

theorem updNode_cache (c : LRUCache T) (j : Nat) (f : LRUNode T → LRUNode T) :
    (c.updNode j f).cache = c.cache := rfl

theorem updNode_head (c : LRUCache T) (j : Nat) (f : LRUNode T → LRUNode T) :
    (c.updNode j f).head = c.head := rfl

theorem updNode_tail (c : LRUCache T) (j : Nat) (f : LRUNode T → LRUNode T) :
    (c.updNode j f).tail = c.tail := rfl

theorem updNode_capacity (c : LRUCache T) (j : Nat) (f : LRUNode T → LRUNode T) :
    (c.updNode j f).capacity = c.capacity := rfl

theorem updNode_nextId (c : LRUCache T) (j : Nat) (f : LRUNode T → LRUNode T) :
    (c.updNode j f).nextId = c.nextId := rfl

theorem updNode_nodesKeys (c : LRUCache T) (j : Nat)
    (f : LRUNode T → LRUNode T) :
    (c.updNode j f).nodes.map Prod.fst = c.nodes.map Prod.fst :=
  map_fst_upd c.nodes j f

theorem keyOf_updNode (c : LRUCache T) (j : Nat) (f : LRUNode T → LRUNode T)
    (hf : ∀ m, (f m).key = m.key) (x : Nat) :
    (c.updNode j f).keyOf x = c.keyOf x := by
  unfold keyOf
  rw [nodeAt_updNode]
  by_cases hx : x = j
  · subst hx
    rw [if_pos rfl]
    cases c.nodeAt x with
    | none => rfl
    | some m => simp [hf]
  · rw [if_neg hx]

theorem valOf_updNode (c : LRUCache T) (j : Nat) (f : LRUNode T → LRUNode T)
    (hf : ∀ m, (f m).value = m.value) (x : Nat) :
    (c.updNode j f).valOf x = c.valOf x := by
  unfold valOf
  rw [nodeAt_updNode]
  by_cases hx : x = j
  · subst hx
    rw [if_pos rfl]
    cases c.nodeAt x with
    | none => rfl
    | some m => simp [hf]
  · rw [if_neg hx]

theorem removeNode_cache (c : LRUCache T) (id : Nat) :
    (c.removeNode id).cache = c.cache := by
  unfold removeNode
  rcases hn : c.nodeAt id with _ | ⟨nk, nv, np, nq⟩
  · rfl
  · cases np <;> cases nq <;> rfl

theorem removeNode_head (c : LRUCache T) (id : Nat) :
    (c.removeNode id).head = c.head := by
  unfold removeNode
  rcases hn : c.nodeAt id with _ | ⟨nk, nv, np, nq⟩
  · rfl
  · cases np <;> cases nq <;> rfl

theorem removeNode_tail (c : LRUCache T) (id : Nat) :
    (c.removeNode id).tail = c.tail := by
  unfold removeNode
  rcases hn : c.nodeAt id with _ | ⟨nk, nv, np, nq⟩
  · rfl
  · cases np <;> cases nq <;> rfl

theorem removeNode_capacity (c : LRUCache T) (id : Nat) :
    (c.removeNode id).capacity = c.capacity := by
  unfold removeNode
  rcases hn : c.nodeAt id with _ | ⟨nk, nv, np, nq⟩
  · rfl
  · cases np <;> cases nq <;> rfl

theorem removeNode_nextId (c : LRUCache T) (id : Nat) :
    (c.removeNode id).nextId = c.nextId := by
  unfold removeNode
  rcases hn : c.nodeAt id with _ | ⟨nk, nv, np, nq⟩
  · rfl
  · cases np <;> cases nq <;> rfl

theorem removeNode_nodesKeys (c : LRUCache T) (id : Nat) :
    (c.removeNode id).nodes.map Prod.fst = c.nodes.map Prod.fst := by
  unfold removeNode
  rcases hn : c.nodeAt id with _ | ⟨nk, nv, np, nq⟩
  · rfl
  · cases np <;> cases nq <;>
      simp only [updNode_nodesKeys]

theorem removeNode_keyOf (c : LRUCache T) (id x : Nat) :
    (c.removeNode id).keyOf x = c.keyOf x := by
  unfold removeNode
  rcases hn : c.nodeAt id with _ | ⟨nk, nv, np, nq⟩
  · rfl
  · cases np with
    | none =>
      cases nq with
      | none => rfl
      | some q =>
        exact keyOf_updNode c q (fun m => { m with prev := none })
          (fun m => rfl) x
    | some p =>
      cases nq with
      | none =>
        exact keyOf_updNode c p (fun m => { m with next := none })
          (fun m => rfl) x
      | some q =>
        exact (keyOf_updNode _ q (fun m => { m with prev := some p })
            (fun m => rfl) x).trans
          (keyOf_updNode c p (fun m => { m with next := some q })
            (fun m => rfl) x)

theorem removeNode_valOf (c : LRUCache T) (id x : Nat) :
    (c.removeNode id).valOf x = c.valOf x := by
  unfold removeNode
  rcases hn : c.nodeAt id with _ | ⟨nk, nv, np, nq⟩
  · rfl
  · cases np with
    | none =>
      cases nq with
      | none => rfl
      | some q =>
        exact valOf_updNode c q (fun m => { m with prev := none })
          (fun m => rfl) x
    | some p =>
      cases nq with
      | none =>
        exact valOf_updNode c p (fun m => { m with next := none })
          (fun m => rfl) x
      | some q =>
        exact (valOf_updNode _ q (fun m => { m with prev := some p })
            (fun m => rfl) x).trans
          (valOf_updNode c p (fun m => { m with next := some q })
            (fun m => rfl) x)

theorem addNode_cache (c : LRUCache T) (id : Nat) :
    (c.addNode id).cache = c.cache := by
  unfold addNode
  rcases hh : c.nodeAt c.head with _ | ⟨hk, hv, hp, hn⟩
  · rfl
  · cases hn <;> rfl

theorem addNode_head (c : LRUCache T) (id : Nat) :
    (c.addNode id).head = c.head := by
  unfold addNode
  rcases hh : c.nodeAt c.head with _ | ⟨hk, hv, hp, hn⟩
  · rfl
  · cases hn <;> rfl

theorem addNode_tail (c : LRUCache T) (id : Nat) :
    (c.addNode id).tail = c.tail := by
  unfold addNode
  rcases hh : c.nodeAt c.head with _ | ⟨hk, hv, hp, hn⟩
  · rfl
  · cases hn <;> rfl

theorem addNode_capacity (c : LRUCache T) (id : Nat) :
    (c.addNode id).capacity = c.capacity := by
  unfold addNode
  rcases hh : c.nodeAt c.head with _ | ⟨hk, hv, hp, hn⟩
  · rfl
  · cases hn <;> rfl

theorem addNode_nextId (c : LRUCache T) (id : Nat) :
    (c.addNode id).nextId = c.nextId := by
  unfold addNode
  rcases hh : c.nodeAt c.head with _ | ⟨hk, hv, hp, hn⟩
  · rfl
  · cases hn <;> rfl

theorem addNode_nodesKeys (c : LRUCache T) (id : Nat) :
    (c.addNode id).nodes.map Prod.fst = c.nodes.map Prod.fst := by
  unfold addNode
  rcases hh : c.nodeAt c.head with _ | ⟨hk, hv, hp, hn⟩
  · rfl
  · cases hn <;> simp only [updNode_nodesKeys]

theorem addNode_keyOf (c : LRUCache T) (id x : Nat) :
    (c.addNode id).keyOf x = c.keyOf x := by
  unfold addNode
  rcases hh : c.nodeAt c.head with _ | ⟨hk, hv, hp, hn⟩
  · rfl
  · cases hn with
    | none =>
      exact (keyOf_updNode _ c.head (fun m => { m with next := some id })
          (fun m => rfl) x).trans
        (keyOf_updNode c id
          (fun n => { n with prev := some c.head, next := none })
          (fun m => rfl) x)
    | some r =>
      exact (keyOf_updNode _ c.head (fun m => { m with next := some id })
          (fun m => rfl) x).trans
        ((keyOf_updNode _ r (fun m => { m with prev := some id })
            (fun m => rfl) x).trans
          (keyOf_updNode c id
            (fun n => { n with prev := some c.head, next := some r })
            (fun m => rfl) x))

theorem addNode_valOf (c : LRUCache T) (id x : Nat) :
    (c.addNode id).valOf x = c.valOf x := by
  unfold addNode
  rcases hh : c.nodeAt c.head with _ | ⟨hk, hv, hp, hn⟩
  · rfl
  · cases hn with
    | none =>
      exact (valOf_updNode _ c.head (fun m => { m with next := some id })
          (fun m => rfl) x).trans
        (valOf_updNode c id
          (fun n => { n with prev := some c.head, next := none })
          (fun m => rfl) x)
    | some r =>
      exact (valOf_updNode _ c.head (fun m => { m with next := some id })
          (fun m => rfl) x).trans
        ((valOf_updNode _ r (fun m => { m with prev := some id })
            (fun m => rfl) x).trans
          (valOf_updNode c id
            (fun n => { n with prev := some c.head, next := some r })
            (fun m => rfl) x))

theorem moveToHead_cache (c : LRUCache T) (id : Nat) :
    (c.moveToHead id).cache = c.cache := by
  unfold moveToHead
  rw [addNode_cache, removeNode_cache]

theorem moveToHead_head (c : LRUCache T) (id : Nat) :
    (c.moveToHead id).head = c.head := by
  unfold moveToHead
  rw [addNode_head, removeNode_head]

theorem moveToHead_tail (c : LRUCache T) (id : Nat) :
    (c.moveToHead id).tail = c.tail := by
  unfold moveToHead
  rw [addNode_tail, removeNode_tail]

theorem moveToHead_capacity (c : LRUCache T) (id : Nat) :
    (c.moveToHead id).capacity = c.capacity := by
  unfold moveToHead
  rw [addNode_capacity, removeNode_capacity]

theorem moveToHead_nextId (c : LRUCache T) (id : Nat) :
    (c.moveToHead id).nextId = c.nextId := by
  unfold moveToHead
  rw [addNode_nextId, removeNode_nextId]

theorem moveToHead_nodesKeys (c : LRUCache T) (id : Nat) :
    (c.moveToHead id).nodes.map Prod.fst = c.nodes.map Prod.fst := by
  unfold moveToHead
  rw [addNode_nodesKeys, removeNode_nodesKeys]

theorem moveToHead_keyOf (c : LRUCache T) (id x : Nat) :
    (c.moveToHead id).keyOf x = c.keyOf x := by
  unfold moveToHead
  rw [addNode_keyOf, removeNode_keyOf]

theorem moveToHead_valOf (c : LRUCache T) (id x : Nat) :
    (c.moveToHead id).valOf x = c.valOf x := by
  unfold moveToHead
  rw [addNode_valOf, removeNode_valOf]

theorem removeLRU_head (c : LRUCache T) : (c.removeLRU).head = c.head := by
  unfold removeLRU
  split
  · rfl
  · split
    · rfl
    · split
      · exact removeNode_head c _
      · exact removeNode_head c _

theorem removeLRU_tail (c : LRUCache T) : (c.removeLRU).tail = c.tail := by
  unfold removeLRU
  split
  · rfl
  · split
    · rfl
    · split
      · exact removeNode_tail c _
      · exact removeNode_tail c _

theorem removeLRU_capacity (c : LRUCache T) :
    (c.removeLRU).capacity = c.capacity := by
  unfold removeLRU
  split
  · rfl
  · split
    · rfl
    · split
      · exact removeNode_capacity c _
      · exact removeNode_capacity c _

theorem removeLRU_nextId (c : LRUCache T) :
    (c.removeLRU).nextId = c.nextId := by
  unfold removeLRU
  split
  · rfl
  · split
    · rfl
    · split
      · exact removeNode_nextId c _
      · exact removeNode_nextId c _

theorem removeLRU_nodesKeys (c : LRUCache T) :
    (c.removeLRU).nodes.map Prod.fst = c.nodes.map Prod.fst := by
  unfold removeLRU
  split
  · rfl
  · split
    · rfl
    · split
      · exact removeNode_nodesKeys c _
      · exact removeNode_nodesKeys c _

theorem removeLRU_keyOf (c : LRUCache T) (x : Nat) :
    (c.removeLRU).keyOf x = c.keyOf x := by
  unfold removeLRU
  split
  · rfl
  · split
    · rfl
    · split
      · exact removeNode_keyOf c _ x
      · exact removeNode_keyOf c _ x

theorem removeLRU_valOf (c : LRUCache T) (x : Nat) :
    (c.removeLRU).valOf x = c.valOf x := by
  unfold removeLRU
  split
  · rfl
  · split
    · rfl
    · split
      · exact removeNode_valOf c _ x
      · exact removeNode_valOf c _ x

end LRUCache

namespace LRUCache

variable {T : Type}

/-! ## Pointer behaviour of `removeNode` and `addNode` on linked nodes -/

theorem removeNode_eq (c : LRUCache T) {id p q : Nat} {n : LRUNode T}
    (hn : c.nodeAt id = some n) (hp : n.prev = some p) (hq : n.next = some q) :
    c.removeNode id =
      (c.updNode p fun m => { m with next := n.next }).updNode q
        fun m => { m with prev := n.prev } := by
  unfold removeNode
  simp only [hn, hp, hq]

theorem removeNode_nextOf (c : LRUCache T) {id p q : Nat} {n np : LRUNode T}
    (hn : c.nodeAt id = some n) (hp : n.prev = some p) (hq : n.next = some q)
    (hpq : p ≠ q) (hpm : c.nodeAt p = some np) (x : Nat) :
    (c.removeNode id).nextOf x = if x = p then n.next else c.nextOf x := by
  rw [removeNode_eq c hn hp hq]
  unfold nextOf
  simp only [nodeAt_updNode]
  by_cases hxq : x = q
  · subst hxq
    have hxp : x ≠ p := Ne.symm hpq
    simp only [if_pos rfl, if_neg hxp]
    cases c.nodeAt x <;> rfl
  · simp only [if_neg hxq]
    by_cases hxp : x = p
    · subst hxp
      simp only [if_pos rfl, hpm]
      rfl
    · simp only [if_neg hxp]

theorem removeNode_prevOf (c : LRUCache T) {id p q : Nat} {n nq : LRUNode T}
    (hn : c.nodeAt id = some n) (hp : n.prev = some p) (hq : n.next = some q)
    (hpq : p ≠ q) (hqm : c.nodeAt q = some nq) (x : Nat) :
    (c.removeNode id).prevOf x = if x = q then n.prev else c.prevOf x := by
  rw [removeNode_eq c hn hp hq]
  unfold prevOf
  simp only [nodeAt_updNode]
  by_cases hxq : x = q
  · subst hxq
    simp only [if_pos rfl, if_neg (Ne.symm hpq), hqm]
    rfl
  · simp only [if_neg hxq]
    by_cases hxp : x = p
    · subst hxp
      simp only [if_pos rfl]
      cases c.nodeAt x <;> rfl
    · simp only [if_neg hxp]

theorem removeNode_nodeAt_other (c : LRUCache T) {id p q : Nat}
    {n : LRUNode T} (hn : c.nodeAt id = some n) (hp : n.prev = some p)
    (hq : n.next = some q) {x : Nat} (hxp : x ≠ p) (hxq : x ≠ q) :
    (c.removeNode id).nodeAt x = c.nodeAt x := by
  rw [removeNode_eq c hn hp hq]
  simp only [nodeAt_updNode, if_neg hxq, if_neg hxp]

theorem addNode_eq (c : LRUCache T) {id r : Nat} {h : LRUNode T}
    (hh : c.nodeAt c.head = some h) (hr : h.next = some r) :
    c.addNode id =
      ((c.updNode id fun n =>
          { n with prev := some c.head, next := h.next }).updNode r
        fun m => { m with prev := some id }).updNode c.head
          fun m => { m with next := some id } := by
  unfold addNode
  simp only [hh, hr]

theorem addNode_nextOf (c : LRUCache T) {id r : Nat} {h ni : LRUNode T}
    (hh : c.nodeAt c.head = some h) (hr : h.next = some r)
    (hih : id ≠ c.head) (hir : id ≠ r) (hhr : c.head ≠ r)
    (hi : c.nodeAt id = some ni) (x : Nat) :
    (c.addNode id).nextOf x =
      if x = c.head then some id
      else if x = id then h.next else c.nextOf x := by
  rw [addNode_eq c hh hr]
  unfold nextOf
  simp only [nodeAt_updNode]
  by_cases hxh : x = c.head
  · subst hxh
    simp only [if_pos rfl, if_neg hhr, if_neg (Ne.symm hih), hh]
    rfl
  · simp only [if_neg hxh]
    by_cases hxr : x = r
    · subst hxr
      simp only [if_pos rfl, if_neg (Ne.symm hir)]
      cases c.nodeAt x <;> rfl
    · simp only [if_neg hxr]
      by_cases hxi : x = id
      · subst hxi
        simp only [if_pos rfl, hi]
        rfl
      · simp only [if_neg hxi]

theorem addNode_prevOf (c : LRUCache T) {id r : Nat} {h ni nr : LRUNode T}
    (hh : c.nodeAt c.head = some h) (hr : h.next = some r)
    (hih : id ≠ c.head) (hir : id ≠ r) (hhr : c.head ≠ r)
    (hi : c.nodeAt id = some ni) (hrm : c.nodeAt r = some nr) (x : Nat) :
    (c.addNode id).prevOf x =
      if x = r then some id
      else if x = id then some c.head else c.prevOf x := by
  rw [addNode_eq c hh hr]
  unfold prevOf
  simp only [nodeAt_updNode]
  by_cases hxh : x = c.head
  · subst hxh
    simp only [if_pos rfl, if_neg hhr, if_neg (Ne.symm hih), hh]
    rfl
  · simp only [if_neg hxh]
    by_cases hxr : x = r
    · subst hxr
      simp only [if_pos rfl, if_neg (Ne.symm hir), hrm]
      rfl
    · simp only [if_neg hxr]
      by_cases hxi : x = id
      · subst hxi
        simp only [if_pos rfl, hi]
        rfl
      · simp only [if_neg hxi]

theorem addNode_nodeAt_other (c : LRUCache T) {id r : Nat} {h : LRUNode T}
    (hh : c.nodeAt c.head = some h) (hr : h.next = some r) {x : Nat}
    (hxh : x ≠ c.head) (hxr : x ≠ r) (hxi : x ≠ id) :
    (c.addNode id).nodeAt x = c.nodeAt x := by
  rw [addNode_eq c hh hr]
  simp only [nodeAt_updNode, if_neg hxh, if_neg hxr, if_neg hxi]

end LRUCache

namespace LRUCache

variable {T : Type}

/-- Detaching a chain member reconnects its neighbours: the recency sequence
loses exactly that entry, and the entry's own node record is untouched. -/
theorem removeNode_spec (c : LRUCache T) {A B : List Nat} {id : Nat}
    (hch : Chain c (A ++ id :: B)) :
    Chain (c.removeNode id) (A ++ B) ∧
      (c.removeNode id).nodeAt id = c.nodeAt id ∧
      ∃ n, c.nodeAt id = some n := by
  obtain ⟨hchain, hnodup, hphead, hptail⟩ := hch
  have hfull : c.head :: (A ++ id :: B) ++ [c.tail] =
      (c.head :: A) ++ id :: (B ++ [c.tail]) := by simp
  rw [hfull] at hchain hnodup
  have hPne : (c.head :: A) ≠ [] := by simp
  have hQne : (B ++ [c.tail]) ≠ [] := by simp
  rw [List.chain'_append] at hchain
  obtain ⟨hCP, hCidQ, hjunc⟩ := hchain
  rw [List.chain'_cons'] at hCidQ
  obtain ⟨hidQ, hCQ⟩ := hCidQ
  obtain ⟨p, hpP, hPlast⟩ :
      ∃ p, p ∈ (c.head :: A) ∧ (c.head :: A).getLast? = some p :=
    ⟨(c.head :: A).getLast hPne, List.getLast_mem hPne,
      List.getLast?_eq_getLast_of_ne_nil hPne⟩
  obtain ⟨q, hqQ, hQhead⟩ :
      ∃ q, q ∈ (B ++ [c.tail]) ∧ (B ++ [c.tail]).head? = some q :=
    ⟨(B ++ [c.tail]).head hQne, List.head_mem hQne,
      List.head?_eq_head hQne⟩
  have hlink_pid : c.link p id := hjunc p (by simp [hPlast]) id (by simp)
  have hlink_idq : c.link id q := hidQ q (by simp [hQhead])
  obtain ⟨hnext_p, hprev_id⟩ := hlink_pid
  obtain ⟨hnext_id, hprev_q⟩ := hlink_idq
  obtain ⟨n, hn, hnp⟩ := Option.bind_eq_some.mp hprev_id
  have hnq : n.next = some q := by
    unfold nextOf at hnext_id
    rw [hn] at hnext_id
    simpa using hnext_id
  obtain ⟨np, hpm, hnpnext⟩ := Option.bind_eq_some.mp hnext_p
  obtain ⟨nq, hqm, hnqprev⟩ := Option.bind_eq_some.mp hprev_q
  have hnodup2 : (id :: ((c.head :: A) ++ (B ++ [c.tail]))).Nodup :=
    List.nodup_middle.mp hnodup
  rw [List.nodup_cons] at hnodup2
  obtain ⟨hidPQ, hnodupPQ⟩ := hnodup2
  have hdisj : (c.head :: A).Disjoint (B ++ [c.tail]) :=
    List.disjoint_of_nodup_append hnodupPQ
  have hpq : p ≠ q := fun h => hdisj hpP (by rw [h]; exact hqQ)
  have hidp : id ≠ p :=
    fun h => hidPQ (List.mem_append.mpr (Or.inl (by rw [h]; exact hpP)))
  have hidq : id ≠ q :=
    fun h => hidPQ (List.mem_append.mpr (Or.inr (by rw [h]; exact hqQ)))
  have hN := removeNode_nextOf c hn hnp hnq hpq hpm
  have hV := removeNode_prevOf c hn hnp hnq hpq hqm
  have hheadP : c.head ∈ (c.head :: A) := List.mem_cons_self _ _
  have htailQ : c.tail ∈ (B ++ [c.tail]) :=
    List.mem_append.mpr (Or.inr (List.mem_singleton.mpr rfl))
  refine ⟨⟨?_, ?_, ?_, ?_⟩, ?_, ⟨n, hn⟩⟩
  · rw [removeNode_head, removeNode_tail]
    have hfull2 : c.head :: (A ++ B) ++ [c.tail] =
        (c.head :: A) ++ (B ++ [c.tail]) := by simp
    rw [hfull2, List.chain'_append]
    refine ⟨?_, ?_, ?_⟩
    · refine chain'_imp_mem ?_ hCP
      intro a ha b hb hab
      obtain ⟨hab1, hab2⟩ := hab
      have hap : a ≠ p := by
        intro h
        rw [h] at hab1
        have hbid : b = id := Option.some.inj (hab1.symm.trans hnext_p)
        exact hidPQ (List.mem_append.mpr (Or.inl (by rw [← hbid]; exact hb)))
      have hbq : b ≠ q := fun h => hdisj hb (by rw [h]; exact hqQ)
      exact ⟨by rw [hN a, if_neg hap]; exact hab1,
        by rw [hV b, if_neg hbq]; exact hab2⟩
    · refine chain'_imp_mem ?_ hCQ
      intro a ha b hb hab
      obtain ⟨hab1, hab2⟩ := hab
      have hap : a ≠ p := fun h => hdisj hpP (by rw [← h]; exact ha)
      have hbq : b ≠ q := by
        intro h
        rw [h] at hab2
        have haid : a = id := Option.some.inj (hab2.symm.trans hprev_q)
        exact hidPQ (List.mem_append.mpr (Or.inr (by rw [← haid]; exact ha)))
      exact ⟨by rw [hN a, if_neg hap]; exact hab1,
        by rw [hV b, if_neg hbq]; exact hab2⟩
    · intro x hx y hy
      rw [hPlast] at hx
      rw [hQhead] at hy
      have hxp : p = x := Option.some.inj (Option.mem_def.mp hx)
      have hyq : q = y := Option.some.inj (Option.mem_def.mp hy)
      subst hxp
      subst hyq
      exact ⟨by rw [hN p, if_pos rfl]; exact hnq,
        by rw [hV q, if_pos rfl]; exact hnp⟩
  · have hfull2 : c.head :: (A ++ B) ++ [c.tail] =
        (c.head :: A) ++ (B ++ [c.tail]) := by simp
    rw [removeNode_head, removeNode_tail, hfull2]
    exact hnodupPQ
  · rw [removeNode_head]
    have hhq : c.head ≠ q := fun h => hdisj hheadP (by rw [h]; exact hqQ)
    rw [hV c.head, if_neg hhq]
    exact hphead
  · rw [removeNode_tail]
    have htp : c.tail ≠ p := fun h => hdisj (by rw [h]; exact hpP) htailQ
    rw [hN c.tail, if_neg htp]
    exact hptail
  · exact removeNode_nodeAt_other c hn hnp hnq hidp hidq

/-- Splicing a fresh node in right after the head sentinel prepends it to
the recency sequence. -/
theorem addNode_spec (c : LRUCache T) {L : List Nat} {id : Nat}
    (hch : Chain c L) (hid : id ∉ c.head :: L ++ [c.tail])
    {ni : LRUNode T} (hi : c.nodeAt id = some ni) :
    Chain (c.addNode id) (id :: L) := by
  obtain ⟨hchain, hnodup, hphead, hptail⟩ := hch
  have hRne : (L ++ [c.tail]) ≠ [] := by simp
  have hfull : (c.head :: L) ++ [c.tail] = c.head :: (L ++ [c.tail]) := by simp
  rw [hfull] at hchain hnodup
  have hid2 : id ∉ c.head :: (L ++ [c.tail]) := by simpa using hid
  rw [List.mem_cons] at hid2
  push_neg at hid2
  rw [List.chain'_cons'] at hchain
  obtain ⟨hlinkh, hCR⟩ := hchain
  obtain ⟨r, hrR, hRhead⟩ :
      ∃ r, r ∈ (L ++ [c.tail]) ∧ (L ++ [c.tail]).head? = some r :=
    ⟨_, List.head_mem hRne, List.head?_eq_head hRne⟩
  have hlink_hr : c.link c.head r := hlinkh r (by simp [hRhead])
  obtain ⟨hnext_h, hprev_r⟩ := hlink_hr
  obtain ⟨h, hh, hhnext⟩ := Option.bind_eq_some.mp hnext_h
  obtain ⟨nr, hrm, hnrprev⟩ := Option.bind_eq_some.mp hprev_r
  rw [List.nodup_cons] at hnodup
  obtain ⟨hheadR, hnodupR⟩ := hnodup
  have hih : id ≠ c.head := hid2.1
  have hidR : id ∉ (L ++ [c.tail]) := hid2.2
  have hir : id ≠ r := fun h2 => hidR (by rw [h2]; exact hrR)
  have hhr : c.head ≠ r := fun h2 => hheadR (by rw [h2]; exact hrR)
  have hN := addNode_nextOf c hh hhnext hih hir hhr hi
  have hV := addNode_prevOf c hh hhnext hih hir hhr hi hrm
  have htailR : c.tail ∈ (L ++ [c.tail]) :=
    List.mem_append.mpr (Or.inr (List.mem_singleton.mpr rfl))
  refine ⟨?_, ?_, ?_, ?_⟩
  · rw [addNode_head, addNode_tail]
    show List.Chain' (c.addNode id).link (c.head :: id :: (L ++ [c.tail]))
    rw [List.chain'_cons]
    constructor
    · exact ⟨by rw [hN c.head, if_pos rfl],
        by rw [hV id, if_neg hir, if_pos rfl]⟩
    · rw [List.chain'_cons']
      constructor
      · intro y hy
        rw [hRhead] at hy
        have hry : r = y := Option.some.inj (Option.mem_def.mp hy)
        subst hry
        exact ⟨by rw [hN id, if_neg hih, if_pos rfl]; exact hhnext,
          by rw [hV r, if_pos rfl]⟩
      · refine chain'_imp_mem ?_ hCR
        intro a ha b hb hab
        obtain ⟨hab1, hab2⟩ := hab
        have hah : a ≠ c.head := fun h2 => hheadR (by rw [← h2]; exact ha)
        have hai : a ≠ id := fun h2 => hidR (by rw [← h2]; exact ha)
        have hbr : b ≠ r := by
          intro h2
          rw [h2] at hab2
          have hach : a = c.head := Option.some.inj (hab2.symm.trans hprev_r)
          exact hheadR (by rw [← hach]; exact ha)
        have hbi : b ≠ id := fun h2 => hidR (by rw [← h2]; exact hb)
        exact ⟨by rw [hN a, if_neg hah, if_neg hai]; exact hab1,
          by rw [hV b, if_neg hbr, if_neg hbi]; exact hab2⟩
  · rw [addNode_head, addNode_tail]
    show (c.head :: id :: (L ++ [c.tail])).Nodup
    rw [List.nodup_cons, List.nodup_cons]
    refine ⟨?_, hidR, hnodupR⟩
    intro hmem
    rcases List.mem_cons.mp hmem with h2 | h2
    · exact hih h2.symm
    · exact hheadR h2
  · rw [addNode_head]
    rw [hV c.head, if_neg hhr, if_neg (Ne.symm hih)]
    exact hphead
  · rw [addNode_tail]
    have hth : c.tail ≠ c.head := fun h2 => hheadR (by rw [← h2]; exact htailR)
    have hti : c.tail ≠ id := fun h2 => hidR (by rw [← h2]; exact htailR)
    rw [hN c.tail, if_neg hth, if_neg hti]
    exact hptail

/-- Promoting a chain member moves it to the front of the recency sequence
and leaves the relative order of all other entries unchanged. -/
theorem moveToHead_spec (c : LRUCache T) {A B : List Nat} {id : Nat}
    (hch : Chain c (A ++ id :: B)) :
    Chain (c.moveToHead id) (id :: (A ++ B)) := by
  have hnodup := hch.2.1
  have h5 : c.head :: (A ++ id :: B) ++ [c.tail] =
      (c.head :: A) ++ id :: (B ++ [c.tail]) := by simp
  rw [h5] at hnodup
  have h6 := (List.nodup_cons.mp (List.nodup_middle.mp hnodup)).1
  obtain ⟨hch', hpres, n, hn⟩ := removeNode_spec c hch
  have hid : id ∉ (c.removeNode id).head :: (A ++ B) ++
      [(c.removeNode id).tail] := by
    rw [removeNode_head, removeNode_tail]
    intro hmem
    apply h6
    simp only [List.mem_cons, List.mem_append, List.mem_singleton] at hmem ⊢
    tauto
  have hn2 : (c.removeNode id).nodeAt id = some n := by
    rw [hpres]
    exact hn
  exact addNode_spec (c.removeNode id) hch' hid hn2

/-- A state with the same head, tail and node records along the chain has
the same chain. -/
theorem Chain_congr {c c' : LRUCache T} {L : List Nat} (h : Chain c L)
    (hh : c'.head = c.head) (ht : c'.tail = c.tail)
    (hagree : ∀ x ∈ c.head :: L ++ [c.tail], c'.nodeAt x = c.nodeAt x) :
    Chain c' L := by
  obtain ⟨hchain, hnodup, hphead, hptail⟩ := h
  have hmemh : c.head ∈ c.head :: L ++ [c.tail] :=
    List.mem_append.mpr (Or.inl (List.mem_cons_self _ _))
  have hmemt : c.tail ∈ c.head :: L ++ [c.tail] :=
    List.mem_append.mpr (Or.inr (List.mem_singleton.mpr rfl))
  refine ⟨?_, ?_, ?_, ?_⟩
  · rw [hh, ht]
    refine chain'_imp_mem ?_ hchain
    intro a ha b hb hab
    obtain ⟨h1, h2⟩ := hab
    constructor
    · show (c'.nodeAt a).bind LRUNode.next = some b
      rw [hagree a ha]
      exact h1
    · show (c'.nodeAt b).bind LRUNode.prev = some a
      rw [hagree b hb]
      exact h2
  · rw [hh, ht]
    exact hnodup
  · rw [hh]
    show (c'.nodeAt c.head).bind LRUNode.prev = none
    rw [hagree c.head hmemh]
    exact hphead
  · rw [ht]
    show (c'.nodeAt c.tail).bind LRUNode.next = none
    rw [hagree c.tail hmemt]
    exact hptail

/-- A state with the same index and the same node keys along the entry list
has the same index invariant, for any list with the same members. -/
theorem MapOk_congr {c c' : LRUCache T} {L L' : List Nat} (h : MapOk c L)
    (hc : c'.cache = c.cache) (hk : ∀ x ∈ L, c'.keyOf x = c.keyOf x)
    (hm : ∀ x, x ∈ L' ↔ x ∈ L) : MapOk c' L' := by
  obtain ⟨hnodup, h2, h3⟩ := h
  refine ⟨by rw [hc]; exact hnodup, ?_, ?_⟩
  · intro p hp
    rw [hc] at hp
    obtain ⟨hmem, hkey⟩ := h2 p hp
    exact ⟨(hm p.2).mpr hmem, by rw [hk p.2 hmem]; exact hkey⟩
  · intro id hid
    obtain ⟨p, hp, hpid, hkey⟩ := h3 id ((hm id).mp hid)
    exact ⟨p, by rw [hc]; exact hp, hpid,
      by rw [hk id ((hm id).mp hid)]; exact hkey⟩

theorem agrees_nil {c : LRUCache T} : Agrees c [] [] := trivial

theorem agrees_cons_iff {c : LRUCache T} {id : Nat} {L : List Nat}
    {e : Int × T} {es : List (Int × T)} :
    Agrees c (id :: L) (e :: es) ↔
      c.keyOf id = some e.1 ∧ c.valOf id = some e.2 ∧ Agrees c L es :=
  Iff.rfl

theorem agrees_length {c : LRUCache T} :
    ∀ {L : List Nat} {es : List (Int × T)}, Agrees c L es →
      L.length = es.length
  | [], [], _ => rfl
  | [], _ :: _, h => False.elim h
  | _ :: _, [], h => False.elim h
  | _ :: _, _ :: _, h =>
      congrArg Nat.succ (agrees_length (agrees_cons_iff.mp h).2.2)

theorem agrees_congr {c c' : LRUCache T} :
    ∀ {L : List Nat} {es : List (Int × T)}, Agrees c L es →
      (∀ x ∈ L, c'.keyOf x = c.keyOf x) →
      (∀ x ∈ L, c'.valOf x = c.valOf x) → Agrees c' L es
  | [], [], _, _, _ => trivial
  | [], _ :: _, h, _, _ => False.elim h
  | _ :: _, [], h, _, _ => False.elim h
  | id :: L, e :: es, h, hk, hv => by
      obtain ⟨h1, h2, h3⟩ := agrees_cons_iff.mp h
      refine agrees_cons_iff.mpr ⟨?_, ?_, ?_⟩
      · rw [hk id (List.mem_cons_self _ _)]
        exact h1
      · rw [hv id (List.mem_cons_self _ _)]
        exact h2
      · exact agrees_congr h3 (fun x hx => hk x (List.mem_cons_of_mem _ hx))
          (fun x hx => hv x (List.mem_cons_of_mem _ hx))

theorem agrees_append {c : LRUCache T} :
    ∀ {A : List Nat} {as : List (Int × T)}, Agrees c A as →
      ∀ {B : List Nat} {bs : List (Int × T)}, Agrees c B bs →
        Agrees c (A ++ B) (as ++ bs)
  | [], [], _, _, _, h2 => h2
  | [], _ :: _, h, _, _, _ => False.elim h
  | _ :: _, [], h, _, _, _ => False.elim h
  | id :: A, e :: as, h, B, bs, h2 => by
      obtain ⟨ha, hb, hc2⟩ := agrees_cons_iff.mp h
      exact agrees_cons_iff.mpr ⟨ha, hb, agrees_append hc2 h2⟩

theorem agrees_split {c : LRUCache T} :
    ∀ {A : List Nat} {id : Nat} {B : List Nat} {es : List (Int × T)},
      Agrees c (A ++ id :: B) es →
      ∃ as e bs, es = as ++ e :: bs ∧ Agrees c A as ∧
        c.keyOf id = some e.1 ∧ c.valOf id = some e.2 ∧ Agrees c B bs
  | [], id, B, es, h => by
      cases es with
      | nil => exact False.elim h
      | cons e es2 =>
        obtain ⟨h1, h2, h3⟩ := agrees_cons_iff.mp h
        exact ⟨[], e, es2, rfl, trivial, h1, h2, h3⟩
  | a :: A, id, B, es, h => by
      cases es with
      | nil => exact False.elim h
      | cons e es2 =>
        obtain ⟨h1, h2, h3⟩ := agrees_cons_iff.mp h
        obtain ⟨as, e2, bs, heq, hA, hk, hv, hB⟩ := agrees_split h3
        exact ⟨e :: as, e2, bs, by rw [heq]; rfl,
          agrees_cons_iff.mpr ⟨h1, h2, hA⟩, hk, hv, hB⟩

theorem agrees_mem {c : LRUCache T} :
    ∀ {L : List Nat} {es : List (Int × T)}, Agrees c L es →
      ∀ e ∈ es, ∃ id ∈ L, c.keyOf id = some e.1 ∧ c.valOf id = some e.2
  | [], [], _, e, he => absurd he (List.not_mem_nil e)
  | [], _ :: _, h, _, _ => False.elim h
  | _ :: _, [], h, _, _ => False.elim h
  | id :: L, e2 :: es, h, e, he => by
      obtain ⟨h1, h2, h3⟩ := agrees_cons_iff.mp h
      rcases List.mem_cons.mp he with rfl | hmem
      · exact ⟨id, List.mem_cons_self _ _, h1, h2⟩
      · obtain ⟨id2, hid2, hk, hv⟩ := agrees_mem h3 e hmem
        exact ⟨id2, List.mem_cons_of_mem _ hid2, hk, hv⟩

/-- Under `MapOk`, distinct chain entries hold distinct keys. -/
theorem keyinj_of_mapOk {c : LRUCache T} {L : List Nat} (hmap : MapOk c L) :
    ∀ id ∈ L, ∀ id2 ∈ L, ∀ k : Int,
      c.keyOf id = some k → c.keyOf id2 = some k → id = id2 := by
  intro id hid id2 hid2 k h1 h2
  obtain ⟨p, hp, hpid, hpkey⟩ := hmap.2.2 id hid
  obtain ⟨p2, hp2, hpid2, hpkey2⟩ := hmap.2.2 id2 hid2
  have hk1 : p.1 = k := Option.some.inj (hpkey.symm.trans h1)
  have hk2 : p2.1 = k := Option.some.inj (hpkey2.symm.trans h2)
  have e1 : mapGet c.cache k = some p.2 := by
    rw [← hk1]
    exact mapGet_of_mem hmap.1 (by simpa using hp)
  have e2 : mapGet c.cache k = some p2.2 := by
    rw [← hk2]
    exact mapGet_of_mem hmap.1 (by simpa using hp2)
  rw [← hpid, ← hpid2]
  exact Option.some.inj (e1.symm.trans e2)

/-- The abstract entry list read off a valid state has pairwise distinct
keys. -/
theorem agrees_keys_nodup {c : LRUCache T} :
    ∀ {L : List Nat} {es : List (Int × T)}, L.Nodup →
      (∀ id ∈ L, ∀ id2 ∈ L, ∀ k : Int,
        c.keyOf id = some k → c.keyOf id2 = some k → id = id2) →
      Agrees c L es → (es.map Prod.fst).Nodup
  | [], [], _, _, _ => List.nodup_nil
  | [], _ :: _, _, _, h => False.elim h
  | _ :: _, [], _, _, h => False.elim h
  | id :: L, e :: es, hL, hinj, hag => by
      obtain ⟨h1, h2, h3⟩ := agrees_cons_iff.mp hag
      rw [List.map_cons, List.nodup_cons]
      obtain ⟨hidL, hLnd⟩ := List.nodup_cons.mp hL
      constructor
      · intro hmem
        obtain ⟨e2, he2, hfst⟩ := List.mem_map.mp hmem
        obtain ⟨id2, hid2, hk2, hv2⟩ := agrees_mem h3 e2 he2
        have hsame : id = id2 :=
          hinj id (List.mem_cons_self _ _) id2 (List.mem_cons_of_mem _ hid2)
            e.1 h1 (by rw [hk2, hfst])
        exact hidL (hsame ▸ hid2)
      · exact agrees_keys_nodup hLnd
          (fun a ha b hb k hka hkb =>
            hinj a (List.mem_cons_of_mem _ ha) b (List.mem_cons_of_mem _ hb)
              k hka hkb) h3

theorem HeapOk_congr {c c2 : LRUCache T} (h : HeapOk c)
    (hn : c2.nodes.map Prod.fst = c.nodes.map Prod.fst)
    (hi : c2.nextId = c.nextId) : HeapOk c2 := by
  intro p hp
  have hmem : p.1 ∈ c2.nodes.map Prod.fst := List.mem_map.mpr ⟨p, hp, rfl⟩
  rw [hn] at hmem
  obtain ⟨p2, hp2, hfst⟩ := List.mem_map.mp hmem
  rw [hi, ← hfst]
  exact h p2 hp2

theorem chain_nodup {c : LRUCache T} {L : List Nat} (h : Chain c L) :
    L.Nodup := by
  have h2 := h.2.1
  have h3 := List.Nodup.of_append_left h2
  exact (List.nodup_cons.mp h3).2

/-- A key the index does not know is absent from the abstract entry list. -/
theorem mapOk_agrees_mapGet_none {c : LRUCache T} {L : List Nat}
    {es : List (Int × T)} {k : Int} (hmap : MapOk c L) (hag : Agrees c L es)
    (hg : mapGet c.cache k = none) : mapGet es k = none := by
  rw [mapGet_eq_none_iff]
  intro hmem
  obtain ⟨e, he, hefst⟩ := List.mem_map.mp hmem
  obtain ⟨id, hidL, hk, hv⟩ := agrees_mem hag e he
  obtain ⟨p, hp, hpid, hpkey⟩ := hmap.2.2 id hidL
  rw [mapGet_eq_none_iff] at hg
  apply hg
  refine List.mem_map.mpr ⟨p, hp, ?_⟩
  have h9 : p.1 = e.1 := Option.some.inj (hpkey.symm.trans hk)
  rw [h9, hefst]

/-- Simulation: `get` behaves on a valid state exactly as `absGet` behaves on
its abstract entry list, both in final state and in returned value. -/
theorem get_sim {c : LRUCache T} {es : List (Int × T)} (h : Rep c es)
    (k : Int) :
    Rep (c.get k).1 (absGet es k).1 ∧ (c.get k).2 = (absGet es k).2 := by
  obtain ⟨hheap, L, hch, hmap, hag⟩ := h
  cases hg : mapGet c.cache k with
  | none =>
    have hes : mapGet es k = none := mapOk_agrees_mapGet_none hmap hag hg
    have hconc : c.get k = (c, none) := by
      unfold get
      rw [hg]
    have habs : absGet es k = (es, none) := by
      unfold absGet
      rw [hes]
    rw [hconc, habs]
    exact ⟨⟨hheap, L, hch, hmap, hag⟩, rfl⟩
  | some id =>
    have hpmem : (k, id) ∈ c.cache := mapGet_mem hg
    obtain ⟨hidL, hkey⟩ := hmap.2.1 (k, id) hpmem
    obtain ⟨A, B, hLAB⟩ := List.append_of_mem hidL
    subst hLAB
    obtain ⟨as, e, bs, hesab, hA, hk2, hv2, hB⟩ := agrees_split hag
    obtain ⟨ek, ev⟩ := e
    have hek : ek = k := Option.some.inj (hk2.symm.trans hkey)
    subst hek
    subst hesab
    have hkn : ((as ++ (ek, ev) :: bs).map Prod.fst).Nodup :=
      agrees_keys_nodup (chain_nodup hch) (keyinj_of_mapOk hmap) hag
    have hknotas : ek ∉ as.map Prod.fst := by
      rw [List.map_append, List.map_cons] at hkn
      have h7 := (List.nodup_cons.mp (List.nodup_middle.mp hkn)).1
      intro hmem2
      exact h7 (List.mem_append.mpr (Or.inl hmem2))
    have hesget : mapGet (as ++ (ek, ev) :: bs) ek = some ev :=
      mapGet_prefix_cons hknotas
    have hesdel : mapDelete (as ++ (ek, ev) :: bs) ek = as ++ bs :=
      mapDelete_prefix_cons hknotas
    have hch2 := moveToHead_spec c hch
    have hconc : c.get ek =
        (c.moveToHead id,
          ((c.moveToHead id).nodeAt id).map LRUNode.value) := by
      unfold get
      rw [hg]
    have habs : absGet (as ++ (ek, ev) :: bs) ek =
        ((ek, ev) :: (as ++ bs), some ev) := by
      unfold absGet
      rw [hesget, hesdel]
    rw [hconc, habs]
    constructor
    · refine ⟨HeapOk_congr hheap (moveToHead_nodesKeys c id)
        (moveToHead_nextId c id), id :: (A ++ B), hch2, ?_, ?_⟩
      · refine MapOk_congr hmap (moveToHead_cache c id)
          (fun x _ => moveToHead_keyOf c id x) (fun x => ?_)
        simp only [List.mem_cons, List.mem_append]
        tauto
      · refine agrees_cons_iff.mpr ⟨?_, ?_, ?_⟩
        · rw [moveToHead_keyOf]
          exact hkey
        · rw [moveToHead_valOf]
          exact hv2
        · exact agrees_congr (agrees_append hA hB)
            (fun x _ => moveToHead_keyOf c id x)
            (fun x _ => moveToHead_valOf c id x)
    · show ((c.moveToHead id).nodeAt id).map LRUNode.value = some ev
      have h8 : (c.moveToHead id).valOf id = c.valOf id :=
        moveToHead_valOf c id id
      unfold valOf at h8
      rw [h8]
      exact hv2

theorem chain'_mem_target {α : Type} {R : α → α → Prop} :
    ∀ {a : α} {l : List α}, (a :: l).Chain' R → ∀ x ∈ l, ∃ y, R y x
  | _, [], _, x, hx => absurd hx (List.not_mem_nil x)
  | a, b :: l, h, x, hx => by
      rw [List.chain'_cons] at h
      rcases List.mem_cons.mp hx with rfl | hx2
      · exact ⟨a, h.1⟩
      · exact chain'_mem_target h.2 x hx2

/-- Every node on the chain (sentinels included) is allocated in the heap. -/
theorem chain_present {c : LRUCache T} {L : List Nat} (h : Chain c L) :
    ∀ x ∈ c.head :: L ++ [c.tail], (c.nodeAt x).isSome := by
  intro x hx
  have hform : c.head :: L ++ [c.tail] = c.head :: (L ++ [c.tail]) := by simp
  rw [hform] at hx
  have hchain := h.1
  rw [hform] at hchain
  rcases List.mem_cons.mp hx with rfl | hx2
  · have hRne : (L ++ [c.tail]) ≠ [] := by simp
    rw [List.chain'_cons'] at hchain
    have hlink := hchain.1 ((L ++ [c.tail]).head hRne)
      (by simp [List.head?_eq_head hRne])
    obtain ⟨n, hn, _⟩ := Option.bind_eq_some.mp hlink.1
    rw [hn]
    rfl
  · obtain ⟨y, hy⟩ := chain'_mem_target hchain x hx2
    obtain ⟨n, hn, _⟩ := Option.bind_eq_some.mp hy.2
    rw [hn]
    rfl

/-- An entry list ending in `e` comes from a chain ending in a node holding
`e`; evicting via `removeLRU` drops exactly that last entry. -/
theorem removeLRU_sim {c : LRUCache T} {es : List (Int × T)} {e : Int × T}
    (h : Rep c (es ++ [e])) : Rep c.removeLRU es := by
  obtain ⟨hheap, L, hch, hmap, hag⟩ := h
  have hLne : L ≠ [] := by
    intro hnil
    have hlen := agrees_length hag
    rw [hnil] at hlen
    simp at hlen
  rcases List.eq_nil_or_concat L with rfl | ⟨L2, z, hL⟩
  · exact absurd rfl hLne
  rw [List.concat_eq_append] at hL
  subst hL
  obtain ⟨as, e2, bs, hesab, hA, hk2, hv2, hB⟩ := agrees_split hag
  have hbs : bs = [] := by
    cases bs with
    | nil => rfl
    | cons b bs2 => exact False.elim hB
  subst hbs
  have hase : as = es := by
    have h1 := congrArg List.dropLast hesab
    rw [List.dropLast_concat, List.dropLast_concat] at h1
    exact h1.symm
  have he2e : e2 = e := by
    have h2 := congrArg List.getLast? hesab
    rw [List.getLast?_concat, List.getLast?_concat] at h2
    exact (Option.some.inj h2).symm
  subst hase
  subst he2e
  have hform : c.head :: (L2 ++ [z]) ++ [c.tail] =
      (c.head :: L2) ++ z :: [c.tail] := by simp
  have hchain := hch.1
  rw [hform, List.chain'_append] at hchain
  obtain ⟨_, hZt, _⟩ := hchain
  rw [List.chain'_cons] at hZt
  obtain ⟨hnext_z, hprev_t⟩ := hZt.1
  obtain ⟨t, htl, htp⟩ := Option.bind_eq_some.mp hprev_t
  obtain ⟨nz, hz, hznext⟩ := Option.bind_eq_some.mp hnext_z
  have hzkey : nz.key = e2.1 := by
    unfold keyOf at hk2
    rw [hz] at hk2
    exact Option.some.inj hk2
  have hconc : c.removeLRU =
      { c.removeNode z with
        cache := mapDelete (c.removeNode z).cache nz.key } := by
    unfold removeLRU
    simp only [htl, htp, hz]
  obtain ⟨hch1, hpres1, n1, hn1⟩ := @removeNode_spec T c L2 [] z hch
  rw [List.append_nil] at hch1
  rw [hconc]
  refine ⟨?_, L2, ?_, ?_, ?_⟩
  · refine HeapOk_congr hheap ?_ ?_
    · show (c.removeNode z).nodes.map Prod.fst = c.nodes.map Prod.fst
      exact removeNode_nodesKeys c z
    · show (c.removeNode z).nextId = c.nextId
      exact removeNode_nextId c z
  · exact Chain_congr hch1 rfl rfl (fun x _ => rfl)
  · refine ⟨?_, ?_, ?_⟩
    · show ((mapDelete (c.removeNode z).cache nz.key).map Prod.fst).Nodup
      rw [removeNode_cache]
      exact List.Nodup.sublist (List.Sublist.map _ (mapDelete_sublist _ _))
        hmap.1
    · intro p hp
      have hp2 : p ∈ mapDelete c.cache nz.key := by
        rw [← removeNode_cache c z]
        exact hp
      rw [mem_mapDelete_iff hmap.1] at hp2
      obtain ⟨hpc, hpne⟩ := hp2
      obtain ⟨hmem, hkey⟩ := hmap.2.1 p hpc
      have hpz : p.2 ≠ z := by
        intro heq
        rw [heq] at hkey
        have hp1 : p.1 = e2.1 := Option.some.inj (hkey.symm.trans hk2)
        exact hpne (hp1.trans hzkey.symm)
      have hmem2 : p.2 ∈ L2 := by
        rcases List.mem_append.mp hmem with h2 | h2
        · exact h2
        · exact absurd (List.mem_singleton.mp h2) hpz
      refine ⟨hmem2, ?_⟩
      show (c.removeNode z).keyOf p.2 = some p.1
      rw [removeNode_keyOf]
      exact hkey
    · intro id hid
      obtain ⟨p, hpc, hpid, hkey⟩ :=
        hmap.2.2 id (List.mem_append.mpr (Or.inl hid))
      obtain ⟨pz, hpzc, hpzid, hpzkey⟩ :=
        hmap.2.2 z (List.mem_append.mpr (Or.inr (List.mem_singleton.mpr rfl)))
      have hzkey2 : pz.1 = e2.1 := Option.some.inj (hpzkey.symm.trans hk2)
      have hidz : id ≠ z := by
        intro heq
        have hnd := chain_nodup hch
        exact List.disjoint_of_nodup_append hnd hid
          (by rw [heq]; exact List.mem_singleton.mpr rfl)
      have hpne : p.1 ≠ nz.key := by
        intro heq
        have h1 : mapGet c.cache p.1 = some p.2 :=
          mapGet_of_mem hmap.1 (by simpa using hpc)
        have h2 : mapGet c.cache pz.1 = some pz.2 :=
          mapGet_of_mem hmap.1 (by simpa using hpzc)
        rw [heq, hzkey, ← hzkey2] at h1
        have hpp : p.2 = pz.2 := Option.some.inj (h1.symm.trans h2)
        exact hidz (by rw [← hpid, hpp, hpzid])
      refine ⟨p, ?_, hpid, ?_⟩
      · show p ∈ mapDelete (c.removeNode z).cache nz.key
        rw [removeNode_cache, mem_mapDelete_iff hmap.1]
        exact ⟨hpc, hpne⟩
      · show (c.removeNode z).keyOf id = some p.1
        rw [removeNode_keyOf]
        exact hkey
  · refine agrees_congr hA ?_ ?_
    · intro x _
      show (c.removeNode z).keyOf x = c.keyOf x
      exact removeNode_keyOf c z x
    · intro x _
      show (c.removeNode z).valOf x = c.valOf x
      exact removeNode_valOf c z x

theorem nextOf_updNode (c : LRUCache T) (j : Nat) (f : LRUNode T → LRUNode T)
    (hf : ∀ m, (f m).next = m.next) (x : Nat) :
    (c.updNode j f).nextOf x = c.nextOf x := by
  unfold nextOf
  rw [nodeAt_updNode]
  by_cases hx : x = j
  · subst hx
    rw [if_pos rfl]
    cases c.nodeAt x with
    | none => rfl
    | some m => simp [hf]
  · rw [if_neg hx]

theorem prevOf_updNode (c : LRUCache T) (j : Nat) (f : LRUNode T → LRUNode T)
    (hf : ∀ m, (f m).prev = m.prev) (x : Nat) :
    (c.updNode j f).prevOf x = c.prevOf x := by
  unfold prevOf
  rw [nodeAt_updNode]
  by_cases hx : x = j
  · subst hx
    rw [if_pos rfl]
    cases c.nodeAt x with
    | none => rfl
    | some m => simp [hf]
  · rw [if_neg hx]

/-- A state with the same head, tail and `prev`/`next` pointers has the same
chain (values may differ). -/
theorem Chain_congr_ptr {c c2 : LRUCache T} {L : List Nat} (h : Chain c L)
    (hh : c2.head = c.head) (ht : c2.tail = c.tail)
    (hnx : ∀ x, c2.nextOf x = c.nextOf x)
    (hpv : ∀ x, c2.prevOf x = c.prevOf x) : Chain c2 L := by
  obtain ⟨hchain, hnodup, hphead, hptail⟩ := h
  refine ⟨?_, ?_, ?_, ?_⟩
  · rw [hh, ht]
    refine chain'_imp_mem ?_ hchain
    intro a _ b _ hab
    exact ⟨by rw [hnx a]; exact hab.1, by rw [hpv b]; exact hab.2⟩
  · rw [hh, ht]
    exact hnodup
  · rw [hh, hpv c.head]
    exact hphead
  · rw [ht, hnx c.tail]
    exact hptail

theorem valOf_updNode_value {c : LRUCache T} {j : Nat} {n0 : LRUNode T}
    (hj : c.nodeAt j = some n0) (v : T) :
    (c.updNode j fun n => { n with value := v }).valOf j = some v := by
  unfold valOf
  rw [nodeAt_updNode, if_pos rfl, hj]
  rfl

theorem valOf_updNode_other {c : LRUCache T} {j x : Nat}
    {f : LRUNode T → LRUNode T} (hx : x ≠ j) :
    (c.updNode j f).valOf x = c.valOf x := by
  unfold valOf
  rw [nodeAt_updNode, if_neg hx]

/-- Under `MapOk`, the index holds exactly one binding per chain entry. -/
theorem mapOk_length {c : LRUCache T} {L : List Nat} (hL : L.Nodup)
    (hmap : MapOk c L) : c.cache.length = L.length := by
  have hsnd : (c.cache.map Prod.snd).Nodup := by
    refine List.Nodup.map_on ?_ (List.Nodup.of_map _ hmap.1)
    intro p hp p2 hp2 hs
    obtain ⟨_, hkey⟩ := hmap.2.1 p hp
    obtain ⟨_, hkey2⟩ := hmap.2.1 p2 hp2
    rw [hs] at hkey
    have h1 : p.1 = p2.1 := Option.some.inj (hkey.symm.trans hkey2)
    exact Prod.ext h1 hs
  have hperm : (c.cache.map Prod.snd).Perm L := by
    rw [List.perm_ext_iff_of_nodup hsnd hL]
    intro a
    constructor
    · intro ha
      obtain ⟨p, hp, hfst⟩ := List.mem_map.mp ha
      rw [← hfst]
      exact (hmap.2.1 p hp).1
    · intro ha
      obtain ⟨p, hp, hpid, _⟩ := hmap.2.2 a ha
      exact List.mem_map.mpr ⟨p, hp, hpid⟩
  calc c.cache.length = (c.cache.map Prod.snd).length :=
        (List.length_map _ _).symm
    _ = L.length := hperm.length_eq

/-- The state reached inside `put` on a miss, just after registering and
splicing in the freshly allocated node: it represents `(k, v)` prepended to
the old entries. -/
theorem putFresh_rep {c : LRUCache T} {L : List Nat} {es : List (Int × T)}
    (hheap : HeapOk c) (hch : Chain c L) (hmap : MapOk c L)
    (hag : Agrees c L es) {k : Int} (hg : mapGet c.cache k = none) (v : T) :
    Rep (LRUCache.addNode
      { c with cache := mapSet c.cache k c.nextId,
               nodes := c.nodes ++ [(c.nextId, ⟨k, v, none, none⟩)],
               nextId := c.nextId + 1 } c.nextId) ((k, v) :: es) := by
  have hfreshmem : c.nextId ∉ c.nodes.map Prod.fst := by
    intro hmem
    obtain ⟨p, hp, hfst⟩ := List.mem_map.mp hmem
    exact absurd (hfst ▸ hheap p hp) (lt_irrefl _)
  have hfresh : c.nodeAt c.nextId = none := mapGet_eq_none_iff.mpr hfreshmem
  have hnotin : c.nextId ∉ c.head :: L ++ [c.tail] := by
    intro hmem
    have hpres := chain_present hch c.nextId hmem
    rw [hfresh] at hpres
    simp at hpres
  set c1 : LRUCache T :=
    { c with cache := mapSet c.cache k c.nextId,
             nodes := c.nodes ++ [(c.nextId, ⟨k, v, none, none⟩)],
             nextId := c.nextId + 1 } with hc1
  have hnode_new : c1.nodeAt c.nextId = some ⟨k, v, none, none⟩ := by
    show mapGet (c.nodes ++ [(c.nextId, ⟨k, v, none, none⟩)]) c.nextId = _
    rw [mapGet_append]
    rw [show mapGet c.nodes c.nextId = none from hfresh]
    simp [mapGet]
  have hnode_old : ∀ x, x ≠ c.nextId → c1.nodeAt x = c.nodeAt x := by
    intro x hx
    show mapGet (c.nodes ++ [(c.nextId, ⟨k, v, none, none⟩)]) x =
      mapGet c.nodes x
    rw [mapGet_append]
    cases hmx : mapGet c.nodes x with
    | some m => rfl
    | none => simp [mapGet, Ne.symm hx]
  have hch1 : Chain c1 L :=
    Chain_congr hch rfl rfl
      (fun x hx => hnode_old x (fun heq => hnotin (heq ▸ hx)))
  have hcache1 : c1.cache = c.cache ++ [(k, c.nextId)] := by
    show mapSet c.cache k c.nextId = _
    exact mapSet_of_not_mem hg c.nextId
  have hch2 : Chain (c1.addNode c.nextId) (c.nextId :: L) :=
    addNode_spec c1 hch1 hnotin hnode_new
  have hkeyold : ∀ x ∈ L, (c1.addNode c.nextId).keyOf x = c.keyOf x := by
    intro x hx
    rw [addNode_keyOf]
    show (c1.nodeAt x).map LRUNode.key = (c.nodeAt x).map LRUNode.key
    rw [hnode_old x (fun heq => hnotin (heq ▸ List.mem_append.mpr
      (Or.inl (List.mem_cons_of_mem _ hx))))]
  have hvalold : ∀ x ∈ L, (c1.addNode c.nextId).valOf x = c.valOf x := by
    intro x hx
    rw [addNode_valOf]
    show (c1.nodeAt x).map LRUNode.value = (c.nodeAt x).map LRUNode.value
    rw [hnode_old x (fun heq => hnotin (heq ▸ List.mem_append.mpr
      (Or.inl (List.mem_cons_of_mem _ hx))))]
  have hkeynew : (c1.addNode c.nextId).keyOf c.nextId = some k := by
    rw [addNode_keyOf]
    show (c1.nodeAt c.nextId).map LRUNode.key = some k
    rw [hnode_new]
    rfl
  have hvalnew : (c1.addNode c.nextId).valOf c.nextId = some v := by
    rw [addNode_valOf]
    show (c1.nodeAt c.nextId).map LRUNode.value = some v
    rw [hnode_new]
    rfl
  have hcache2 : (c1.addNode c.nextId).cache = c.cache ++ [(k, c.nextId)] := by
    rw [addNode_cache, hcache1]
  refine ⟨?_, c.nextId :: L, hch2, ⟨?_, ?_, ?_⟩, ?_⟩
  · intro p hp
    have hmem : p.1 ∈ (c1.addNode c.nextId).nodes.map Prod.fst :=
      List.mem_map.mpr ⟨p, hp, rfl⟩
    rw [addNode_nodesKeys] at hmem
    have hkeys : c1.nodes.map Prod.fst = c.nodes.map Prod.fst ++ [c.nextId] := by
      show (c.nodes ++
        [(c.nextId, (⟨k, v, none, none⟩ : LRUNode T))]).map Prod.fst = _
      rw [List.map_append]
      rfl
    rw [hkeys] at hmem
    have hnid : (c1.addNode c.nextId).nextId = c.nextId + 1 := by
      rw [addNode_nextId]
    rw [hnid]
    rcases List.mem_append.mp hmem with h2 | h2
    · obtain ⟨p2, hp2, hfst⟩ := List.mem_map.mp h2
      rw [← hfst]
      exact Nat.lt_succ_of_lt (hheap p2 hp2)
    · rw [List.mem_singleton.mp h2]
      exact Nat.lt_succ_self _
  · rw [hcache2, List.map_append]
    refine List.nodup_append.mpr ⟨hmap.1, by simp, ?_⟩
    intro a ha hb
    have hbk : a = k := by simpa using hb
    rw [hbk] at ha
    rw [mapGet_eq_none_iff] at hg
    exact hg ha
  · intro p hp
    rw [hcache2] at hp
    rcases List.mem_append.mp hp with h2 | h2
    · obtain ⟨hmemL, hkey⟩ := hmap.2.1 p h2
      exact ⟨List.mem_cons_of_mem _ hmemL,
        by rw [hkeyold p.2 hmemL]; exact hkey⟩
    · rw [List.mem_singleton.mp h2]
      exact ⟨List.mem_cons_self _ _, hkeynew⟩
  · intro id hid
    rcases List.mem_cons.mp hid with rfl | hid2
    · exact ⟨(k, c.nextId), by
        rw [hcache2]
        exact List.mem_append.mpr (Or.inr (List.mem_singleton.mpr rfl)),
        rfl, hkeynew⟩
    · obtain ⟨p, hpc, hpid, hkey⟩ := hmap.2.2 id hid2
      exact ⟨p, by rw [hcache2]; exact List.mem_append.mpr (Or.inl hpc),
        hpid, by rw [hkeyold id hid2]; exact hkey⟩
  · refine agrees_cons_iff.mpr ⟨hkeynew, hvalnew, ?_⟩
    exact agrees_congr hag hkeyold hvalold

/-- `put` on a missing key, unfolded. -/
theorem put_eq_of_none {c : LRUCache T} {k : Int}
    (hg : mapGet c.cache k = none) (v : T) :
    c.put k v =
      if ((LRUCache.addNode
            { c with cache := mapSet c.cache k c.nextId,
                     nodes := c.nodes ++ [(c.nextId, ⟨k, v, none, none⟩)],
                     nextId := c.nextId + 1 } c.nextId).cache.length : Int) >
          (LRUCache.addNode
            { c with cache := mapSet c.cache k c.nextId,
                     nodes := c.nodes ++ [(c.nextId, ⟨k, v, none, none⟩)],
                     nextId := c.nextId + 1 } c.nextId).capacity
      then (LRUCache.addNode
            { c with cache := mapSet c.cache k c.nextId,
                     nodes := c.nodes ++ [(c.nextId, ⟨k, v, none, none⟩)],
                     nextId := c.nextId + 1 } c.nextId).removeLRU
      else LRUCache.addNode
            { c with cache := mapSet c.cache k c.nextId,
                     nodes := c.nodes ++ [(c.nextId, ⟨k, v, none, none⟩)],
                     nextId := c.nextId + 1 } c.nextId := by
  unfold put
  rw [hg]

/-- Simulation: `put` behaves on a valid state exactly as `absPut` behaves
on its abstract entry list. -/
theorem put_sim {c : LRUCache T} {es : List (Int × T)} (h : Rep c es)
    (k : Int) (v : T) : Rep (c.put k v) (absPut c.capacity es k v) := by
  obtain ⟨hheap, L, hch, hmap, hag⟩ := h
  cases hg : mapGet c.cache k with
  | some id =>
    have hpmem : (k, id) ∈ c.cache := mapGet_mem hg
    obtain ⟨hidL, hkey⟩ := hmap.2.1 (k, id) hpmem
    obtain ⟨A, B, hLAB⟩ := List.append_of_mem hidL
    subst hLAB
    obtain ⟨as, e, bs, hesab, hA, hk2, hv2, hB⟩ := agrees_split hag
    obtain ⟨ek, ev⟩ := e
    have hek : ek = k := Option.some.inj (hk2.symm.trans hkey)
    subst hek
    subst hesab
    have hkn : ((as ++ (ek, ev) :: bs).map Prod.fst).Nodup :=
      agrees_keys_nodup (chain_nodup hch) (keyinj_of_mapOk hmap) hag
    have hknotas : ek ∉ as.map Prod.fst := by
      rw [List.map_append, List.map_cons] at hkn
      have h7 := (List.nodup_cons.mp (List.nodup_middle.mp hkn)).1
      intro hmem2
      exact h7 (List.mem_append.mpr (Or.inl hmem2))
    have hesget : mapGet (as ++ (ek, ev) :: bs) ek = some ev :=
      mapGet_prefix_cons hknotas
    have hesdel : mapDelete (as ++ (ek, ev) :: bs) ek = as ++ bs :=
      mapDelete_prefix_cons hknotas
    obtain ⟨n0, hn0⟩ : ∃ n0, c.nodeAt id = some n0 := by
      unfold keyOf at hkey
      obtain ⟨n0, hn0, _⟩ := Option.map_eq_some'.mp hkey
      exact ⟨n0, hn0⟩
    have hch1 : Chain (c.updNode id fun n => { n with value := v })
        (A ++ id :: B) :=
      Chain_congr_ptr hch rfl rfl
        (nextOf_updNode c id _ (fun m => rfl))
        (prevOf_updNode c id _ (fun m => rfl))
    have hconc : c.put ek v =
        ((c.updNode id fun n => { n with value := v }).moveToHead id) := by
      unfold put
      rw [hg]
    have habs : absPut c.capacity (as ++ (ek, ev) :: bs) ek v =
        (ek, v) :: (as ++ bs) := by
      unfold absPut
      rw [hesget, hesdel]
    rw [hconc, habs]
    have hch2 := moveToHead_spec _ hch1
    refine ⟨?_, id :: (A ++ B), hch2, ?_, ?_⟩
    · refine HeapOk_congr hheap ?_ ?_
      · rw [moveToHead_nodesKeys, updNode_nodesKeys]
      · rw [moveToHead_nextId, updNode_nextId]
    · refine MapOk_congr hmap ?_ ?_ (fun x => ?_)
      · rw [moveToHead_cache, updNode_cache]
      · intro x _
        exact (moveToHead_keyOf _ id x).trans
          (keyOf_updNode c id (fun n => { n with value := v }) (fun m => rfl) x)
      · simp only [List.mem_cons, List.mem_append]
        tauto
    · refine agrees_cons_iff.mpr ⟨?_, ?_, ?_⟩
      · exact (moveToHead_keyOf _ id id).trans
          ((keyOf_updNode c id (fun n => { n with value := v }) (fun m => rfl) id).trans hkey)
      · exact (moveToHead_valOf _ id id).trans (valOf_updNode_value hn0 v)
      · have hidnot : id ∉ A ++ B := by
          have hnd := chain_nodup hch
          exact (List.nodup_cons.mp (List.nodup_middle.mp hnd)).1
        refine agrees_congr (agrees_append hA hB) ?_ ?_
        · intro x _
          exact (moveToHead_keyOf _ id x).trans
            (keyOf_updNode c id (fun n => { n with value := v }) (fun m => rfl) x)
        · intro x hx
          have hxid : x ≠ id := fun heq => hidnot (heq ▸ hx)
          exact (moveToHead_valOf _ id x).trans (valOf_updNode_other hxid)
  | none =>
    have hesnone : mapGet es k = none := mapOk_agrees_mapGet_none hmap hag hg
    have hrep2 := putFresh_rep hheap hch hmap hag hg v
    have hlen : c.cache.length = es.length := by
      rw [mapOk_length (chain_nodup hch) hmap, agrees_length hag]
    have hcache2 : (LRUCache.addNode
        { c with cache := mapSet c.cache k c.nextId,
                 nodes := c.nodes ++ [(c.nextId, ⟨k, v, none, none⟩)],
                 nextId := c.nextId + 1 } c.nextId).cache =
        c.cache ++ [(k, c.nextId)] := by
      rw [addNode_cache]
      show mapSet c.cache k c.nextId = _
      exact mapSet_of_not_mem hg c.nextId
    have hlen2 : (LRUCache.addNode
        { c with cache := mapSet c.cache k c.nextId,
                 nodes := c.nodes ++ [(c.nextId, ⟨k, v, none, none⟩)],
                 nextId := c.nextId + 1 } c.nextId).cache.length =
        es.length + 1 := by
      rw [hcache2, List.length_append, hlen]
      rfl
    have hcap2 : (LRUCache.addNode
        { c with cache := mapSet c.cache k c.nextId,
                 nodes := c.nodes ++ [(c.nextId, ⟨k, v, none, none⟩)],
                 nextId := c.nextId + 1 } c.nextId).capacity = c.capacity := by
      rw [addNode_capacity]
    have habs : absPut c.capacity es k v =
        if (es.length : Int) + 1 > c.capacity
        then ((k, v) :: es).dropLast else (k, v) :: es := by
      unfold absPut
      rw [hesnone]
    rw [put_eq_of_none hg v, habs]
    simp only [hlen2, hcap2, Nat.cast_add, Nat.cast_one]
    by_cases hcond : (es.length : Int) + 1 > c.capacity
    · rw [if_pos hcond, if_pos hcond]
      have hne : ((k, v) :: es) ≠ [] := List.cons_ne_nil _ _
      have hsplit : (k, v) :: es =
          ((k, v) :: es).dropLast ++ [((k, v) :: es).getLast hne] :=
        (List.dropLast_append_getLast hne).symm
      rw [hsplit] at hrep2
      exact removeLRU_sim hrep2
    · rw [if_neg hcond, if_neg hcond]
      exact hrep2

/-- A freshly constructed cache is a valid empty state, whatever the
capacity argument. -/
theorem rep_init (T : Type) [Inhabited T] (cap : Int) :
    Rep (init T cap) [] := by
  refine ⟨?_, [], ⟨?_, ?_, rfl, rfl⟩,
    ⟨by simp [init], by simp [init], by simp [init]⟩, trivial⟩
  · intro p hp
    rcases List.mem_cons.mp hp with rfl | hp2
    · show 0 < 2
      norm_num
    · rcases List.mem_cons.mp hp2 with rfl | hp3
      · show 1 < 2
        norm_num
      · exact absurd hp3 (List.not_mem_nil _)
  · exact List.chain'_pair.mpr ⟨rfl, rfl⟩
  · simp [init]

theorem rep_length {c : LRUCache T} {es : List (Int × T)} (h : Rep c es) :
    c.cache.length = es.length := by
  obtain ⟨_, L, hch, hmap, hag⟩ := h
  rw [mapOk_length (chain_nodup hch) hmap, agrees_length hag]

theorem get_capacity (c : LRUCache T) (k : Int) :
    (c.get k).1.capacity = c.capacity := by
  unfold get
  cases hg : mapGet c.cache k with
  | none => rfl
  | some id =>
    show (c.moveToHead id).capacity = c.capacity
    exact moveToHead_capacity c id

theorem put_capacity (c : LRUCache T) (k : Int) (v : T) :
    (c.put k v).capacity = c.capacity := by
  cases hg : mapGet c.cache k with
  | some id =>
    have hconc : c.put k v =
        ((c.updNode id fun n => { n with value := v }).moveToHead id) := by
      unfold put
      rw [hg]
    rw [hconc, moveToHead_capacity, updNode_capacity]
  | none =>
    rw [put_eq_of_none hg v]
    split
    · rw [removeLRU_capacity, addNode_capacity]
    · rw [addNode_capacity]

/-- The states reachable from a starting state by `get` and `put` calls. -/
inductive ReachableFrom (c0 : LRUCache T) : LRUCache T → Prop
  | refl : ReachableFrom c0 c0
  | get_step {c : LRUCache T} (k : Int) :
      ReachableFrom c0 c → ReachableFrom c0 (c.get k).1
  | put_step {c : LRUCache T} (k : Int) (v : T) :
      ReachableFrom c0 c → ReachableFrom c0 (c.put k v)

/-- Every state reachable from a fresh cache is a valid representation of
some entry list. -/
theorem reachable_rep {T : Type} [Inhabited T] {cap : Int} {c : LRUCache T}
    (h : ReachableFrom (init T cap) c) : ∃ es, Rep c es := by
  induction h with
  | refl => exact ⟨[], rep_init T cap⟩
  | get_step k _ ih =>
    obtain ⟨es, hrep⟩ := ih
    exact ⟨(absGet es k).1, (get_sim hrep k).1⟩
  | put_step k v _ ih =>
    obtain ⟨es, hrep⟩ := ih
    exact ⟨absPut _ es k v, put_sim hrep k v⟩

/-- A sequence of `put` calls, applied left to right. -/
def putList (c : LRUCache T) : List (Int × T) → LRUCache T
  | [] => c
  | (k, v) :: rest => putList (c.put k v) rest

theorem absPut_length_le {es : List (Int × T)} {cap : Int}
    (h : (es.length : Int) ≤ cap) (k : Int) (v : T) :
    ((absPut cap es k v).length : Int) ≤ cap := by
  unfold absPut
  cases hg : mapGet es k with
  | some w =>
    have h2 : (mapDelete es k).length + 1 = es.length := mapDelete_length hg
    simp only [List.length_cons]
    rw [h2]
    exact h
  | none =>
    by_cases hcond : (es.length : Int) + 1 > cap
    · rw [if_pos hcond]
      have h3 : (((k, v) :: es).dropLast).length = es.length := by
        rw [List.length_dropLast]
        simp
      rw [h3]
      exact h
    · rw [if_neg hcond]
      push_neg at hcond
      simp only [List.length_cons]
      exact_mod_cast hcond

theorem putList_rep {cap : Int} :
    ∀ (ops : List (Int × T)) {c : LRUCache T} {es : List (Int × T)},
      Rep c es → c.capacity = cap → (es.length : Int) ≤ cap →
      ∃ es2, Rep (putList c ops) es2 ∧ (putList c ops).capacity = cap ∧
        (es2.length : Int) ≤ cap
  | [], _, es, hrep, hcap, hlen => ⟨es, hrep, hcap, hlen⟩
  | (k, v) :: rest, c, es, hrep, hcap, hlen => by
      have h1 := put_sim hrep k v
      rw [hcap] at h1
      exact putList_rep rest h1 (by rw [put_capacity, hcap])
        (absPut_length_le hlen k v)

instance heapOkDecidable (c : LRUCache T) : Decidable (HeapOk c) :=
  decidable_of_iff (∀ p ∈ c.nodes, p.1 < c.nextId) Iff.rfl

def decidableChainAux {α : Type} {R : α → α → Prop} [DecidableRel R] :
    ∀ (a : α) (l : List α), Decidable (List.Chain R a l)
  | _, [] => .isTrue List.Chain.nil
  | a, b :: l =>
      have : Decidable (List.Chain R b l) := decidableChainAux b l
      decidable_of_iff (R a b ∧ List.Chain R b l) List.chain_cons.symm

instance (priority := 1100) decidableChainK {α : Type} {R : α → α → Prop}
    [DecidableRel R] : ∀ (l : List α), Decidable (List.Chain' R l)
  | [] => .isTrue trivial
  | a :: l => decidableChainAux a l

instance chainDecidable (c : LRUCache T) (L : List Nat) :
    Decidable (Chain c L) :=
  decidable_of_iff
    (List.Chain' c.link (c.head :: L ++ [c.tail]) ∧
      (c.head :: L ++ [c.tail]).Nodup ∧
      c.prevOf c.head = none ∧ c.nextOf c.tail = none) Iff.rfl

instance mapOkDecidable (c : LRUCache T) (L : List Nat) :
    Decidable (MapOk c L) :=
  decidable_of_iff
    ((c.cache.map Prod.fst).Nodup ∧
      (∀ p ∈ c.cache, p.2 ∈ L ∧ c.keyOf p.2 = some p.1) ∧
      ∀ id ∈ L, ∃ p ∈ c.cache, p.2 = id ∧ c.keyOf id = some p.1) Iff.rfl

/-- A key absent from the abstract entry list is absent from the index. -/
theorem rep_mapGet_none_of_abs {c : LRUCache T} {es : List (Int × T)}
    (h : Rep c es) {k : Int} (hes : mapGet es k = none) :
    mapGet c.cache k = none := by
  obtain ⟨hheap, L, hch, hmap, hag⟩ := h
  cases hg : mapGet c.cache k with
  | none => rfl
  | some id =>
    exfalso
    have hpmem : (k, id) ∈ c.cache := mapGet_mem hg
    obtain ⟨hidL, hkey⟩ := hmap.2.1 (k, id) hpmem
    obtain ⟨A, B, hLAB⟩ := List.append_of_mem hidL
    rw [hLAB] at hag
    obtain ⟨as, e, bs, hesab, _, hk2, _, _⟩ := agrees_split hag
    have hek : e.1 = k := Option.some.inj (hk2.symm.trans hkey)
    rw [hesab, mapGet_eq_none_iff] at hes
    exact hes (List.mem_map.mpr ⟨e, by simp, hek⟩)

/-- A key present in the abstract entry list is found by the index. -/
theorem rep_mapGet_isSome_of_mem {c : LRUCache T} {es : List (Int × T)}
    (h : Rep c es) {k : Int} (hmem : k ∈ es.map Prod.fst) :
    (mapGet c.cache k).isSome := by
  obtain ⟨hheap, L, hch, hmap, hag⟩ := h
  obtain ⟨e, he, hefst⟩ := List.mem_map.mp hmem
  obtain ⟨id, hidL, hk, hv⟩ := agrees_mem hag e he
  obtain ⟨p, hp, hpid, hpkey⟩ := hmap.2.2 id hidL
  have hps : p.1 = k := by
    have h1 : p.1 = e.1 := Option.some.inj (hpkey.symm.trans hk)
    rw [h1, hefst]
  have h2 : mapGet c.cache p.1 = some p.2 :=
    mapGet_of_mem hmap.1 (by simpa using hp)
  rw [hps] at h2
  rw [h2]
  rfl

/-- The value actually returned by the TypeScript `get(key): T | null` when
the stored type `T` itself contains `null`: we instantiate the stored type
as `Option U` (with `none` for `null`), so the TypeScript union `T | null`
collapses and the structured result flattens through `Option.join`. -/
def getTS {U : Type} (c : LRUCache (Option U)) (k : Int) :
    LRUCache (Option U) × Option U :=
  ((c.get k).1, (c.get k).2.join)

/-! ## Claim theorems

Each `claim_Cn` theorem settles the corresponding claim of the
specification. -/

/-- C3: for every valid cache state and every key that currently has an
entry, `get` returns the stored value and moves that entry to the
most-recently-used position (the front of the recency sequence,
i.e. immediately after the head sentinel), while the relative recency order
of all other entries (`mapDelete es k`) is unchanged. -/
theorem claim_C3_get_hit_promotes {T : Type} {c : LRUCache T}
    {es : List (Int × T)} (h : Rep c es) {k : Int} {v : T}
    (hk : mapGet es k = some v) :
    (c.get k).2 = some v ∧ Rep (c.get k).1 ((k, v) :: mapDelete es k) := by
  have hsim := get_sim h k
  have habs : absGet es k = ((k, v) :: mapDelete es k, some v) := by
    unfold absGet
    rw [hk]
  rw [habs] at hsim
  exact ⟨hsim.2, hsim.1⟩

theorem claim_C3_get_hit_promotes_witness :
    ((((LRUCache.init Int 2).put 1 10).get 1).2 = some 10 ∧
      Rep (((LRUCache.init Int 2).put 1 10).get 1).1
        ((1, 10) :: mapDelete [(1, 10)] 1)) :=
  @claim_C3_get_hit_promotes Int ((LRUCache.init Int 2).put 1 10) [(1, 10)]
    ⟨by decide, [2], by decide, by decide, by decide⟩ 1 10 (by decide)

/-- C5: on a key that already has an entry, `put(k, v1)` then `put(k, v2)`
leaves the number of entries unchanged (no eviction happens) and a subsequent
`get(k)` returns `v2`. -/
theorem claim_C5_overwrite_in_place {T : Type} {c : LRUCache T}
    {es : List (Int × T)} (h : Rep c es) {k : Int} {v0 : T}
    (hk : mapGet es k = some v0) (v1 v2 : T) :
    ((c.put k v1).put k v2).cache.length = c.cache.length ∧
      (((c.put k v1).put k v2).get k).2 = some v2 := by
  have h1 := put_sim h k v1
  have habs1 : absPut c.capacity es k v1 = (k, v1) :: mapDelete es k := by
    unfold absPut
    rw [hk]
  rw [habs1] at h1
  have h2 := put_sim h1 k v2
  have habs2 : absPut (c.put k v1).capacity ((k, v1) :: mapDelete es k) k v2 =
      (k, v2) :: mapDelete es k := by
    unfold absPut
    rw [show mapGet ((k, v1) :: mapDelete es k) k = some v1 from by
      simp [mapGet]]
    rw [show mapDelete ((k, v1) :: mapDelete es k) k = mapDelete es k from by
      simp [mapDelete]]
  rw [habs2] at h2
  constructor
  · rw [rep_length h2, rep_length h]
    simp only [List.length_cons]
    exact mapDelete_length hk
  · have h3 := get_sim h2 k
    have habs3 : absGet ((k, v2) :: mapDelete es k) k =
        ((k, v2) :: mapDelete ((k, v2) :: mapDelete es k) k, some v2) := by
      unfold absGet
      rw [show mapGet ((k, v2) :: mapDelete es k) k = some v2 from by
        simp [mapGet]]
    rw [habs3] at h3
    exact h3.2

theorem claim_C5_overwrite_in_place_witness :
    ((((LRUCache.init Int 2).put 1 10).put 1 20).put 1 30).cache.length =
        ((LRUCache.init Int 2).put 1 10).cache.length ∧
      (((((LRUCache.init Int 2).put 1 10).put 1 20).put 1 30).get 1).2 =
        some 30 :=
  @claim_C5_overwrite_in_place Int ((LRUCache.init Int 2).put 1 10) [(1, 10)]
    ⟨by decide, [2], by decide, by decide, by decide⟩ 1 10 (by decide) 20 30

/-- C6: `get` on a key with no entry returns the absent marker (`none`, the
TypeScript `null`) and leaves the entire cache state unchanged, so no other
entry's recency position changes. -/
theorem claim_C6_miss_returns_absent {T : Type} (c : LRUCache T) (k : Int)
    (h : mapGet c.cache k = none) : c.get k = (c, none) := by
  unfold get
  rw [h]

theorem claim_C6_miss_returns_absent_witness :
    (LRUCache.init Int 1).get 5 = (LRUCache.init Int 1, none) :=
  claim_C6_miss_returns_absent (LRUCache.init Int 1) 5 rfl

/-- C7: calling `get` twice in succession on the same key returns the same
value as calling it once and leads to the same observable state: both the
state after one `get` and the state after two represent the same abstract
entry list (same contents, same recency order).  This holds for hits
(including an entry already at the head) and for misses. -/
theorem claim_C7_get_idempotent {T : Type} {c : LRUCache T}
    {es : List (Int × T)} (h : Rep c es) (k : Int) :
    ((c.get k).1.get k).2 = (c.get k).2 ∧
      ∃ es1, Rep (c.get k).1 es1 ∧ Rep ((c.get k).1.get k).1 es1 := by
  have h1 := get_sim h k
  cases hk : mapGet es k with
  | none =>
    have habs : absGet es k = (es, none) := by
      unfold absGet
      rw [hk]
    rw [habs] at h1
    have h2 := get_sim h1.1 k
    rw [habs] at h2
    exact ⟨by rw [h2.2, h1.2], ⟨es, h1.1, h2.1⟩⟩
  | some v =>
    have habs : absGet es k = ((k, v) :: mapDelete es k, some v) := by
      unfold absGet
      rw [hk]
    rw [habs] at h1
    have h2 := get_sim h1.1 k
    have habs2 : absGet ((k, v) :: mapDelete es k) k =
        ((k, v) :: mapDelete es k, some v) := by
      unfold absGet
      rw [show mapGet ((k, v) :: mapDelete es k) k = some v from by
        simp [mapGet]]
      rw [show mapDelete ((k, v) :: mapDelete es k) k = mapDelete es k from by
        simp [mapDelete]]
    rw [habs2] at h2
    exact ⟨by rw [h2.2, h1.2], ⟨(k, v) :: mapDelete es k, h1.1, h2.1⟩⟩

theorem claim_C7_get_idempotent_witness :
    (((((LRUCache.init Int 2).put 1 10).get 1).1.get 1).2 =
        (((LRUCache.init Int 2).put 1 10).get 1).2 ∧
      ∃ es1, Rep ((((LRUCache.init Int 2).put 1 10).get 1).1) es1 ∧
        Rep (((((LRUCache.init Int 2).put 1 10).get 1).1.get 1).1) es1) :=
  @claim_C7_get_idempotent Int ((LRUCache.init Int 2).put 1 10) [(1, 10)]
    ⟨by decide, [2], by decide, by decide, by decide⟩ 1

/-- C8 counterexample: the constructor does not validate its capacity
argument.  Constructing with capacity `0` (a non-positive value) does not
fail with an `InvalidCapacity` error — no such error exists anywhere in the
source — but returns a structurally valid, usable cache object: its
representation invariant holds and `put`/`get` operate on it normally. -/
theorem claim_C8_counterexample :
    (LRUCache.init Int 0).capacity = 0 ∧
    Rep (LRUCache.init Int 0) [] ∧
    ((LRUCache.init Int 0).put 1 5).cache = [] ∧
    (((LRUCache.init Int 0).put 1 5).get 1).2 = none :=
  ⟨rfl, rep_init Int 0, by decide, by decide⟩

/-- C8 amended: construction with zero or negative capacity succeeds without
any validation; the capacity field simply records the argument and the
resulting cache is a well-formed degenerate cache that always evicts
immediately: every `put` of a new key inserts the entry and at once removes
it again, so the cache stays empty. -/
theorem claim_C8_amended {T : Type} [Inhabited T] (cap : Int)
    (hcap : cap ≤ 0) :
    (LRUCache.init T cap).capacity = cap ∧
    Rep (LRUCache.init T cap) [] ∧
    ∀ (k : Int) (v : T), Rep ((LRUCache.init T cap).put k v) [] ∧
      ((LRUCache.init T cap).put k v).cache = [] := by
  refine ⟨rfl, rep_init T cap, ?_⟩
  intro k v
  have h1 := put_sim (rep_init T cap) k v
  have hcond : ((([] : List (Int × T)).length : Int) + 1 >
      (LRUCache.init T cap).capacity) := by
    show ((0 : Nat) : Int) + 1 > cap
    push_cast
    omega
  have habs : absPut (LRUCache.init T cap).capacity [] k v = [] := by
    unfold absPut
    rw [show mapGet ([] : List (Int × T)) k = none from rfl, if_pos hcond]
    rfl
  rw [habs] at h1
  refine ⟨h1, ?_⟩
  have h2 : ((LRUCache.init T cap).put k v).cache.length = 0 := by
    rw [rep_length h1]
    rfl
  exact List.length_eq_zero.mp h2

theorem claim_C8_amended_witness :
    (LRUCache.init Int (-1)).capacity = (-1 : Int) ∧
    Rep (LRUCache.init Int (-1)) [] ∧
    ∀ (k : Int) (v : Int), Rep ((LRUCache.init Int (-1)).put k v) [] ∧
      ((LRUCache.init Int (-1)).put k v).cache = [] :=
  claim_C8_amended (-1) (by norm_num)

/-- C9: because `get` returns the TypeScript union `T | null`, absence is
indistinguishable from a stored `null` when `T` itself contains `null`
(modelled here as `Option Int` with `none` for `null`).  `getTS` flattens the
structured result to the value actually produced by the TypeScript code.
After `put 1 null`, key 1 is present in the index, yet `get 1` produces
exactly the same `null` that `get 2` produces for the absent key 2. -/
theorem claim_C9_null_indistinguishable_from_absent :
    (mapGet ((LRUCache.init (Option Int) 2).put 1 none).cache 1).isSome ∧
    (getTS ((LRUCache.init (Option Int) 2).put 1 none) 1).2 = none ∧
    mapGet ((LRUCache.init (Option Int) 2).put 1 none).cache 2 = none ∧
    (getTS ((LRUCache.init (Option Int) 2).put 1 none) 2).2 = none ∧
    (getTS ((LRUCache.init (Option Int) 2).put 1 none) 1).2 =
      (getTS ((LRUCache.init (Option Int) 2).put 1 none) 2).2 := by
  refine ⟨by decide, by decide, by decide, by decide, by decide⟩

/-- C10: construction with capacity 0 succeeds and yields a degenerate but
well-defined cache: `put k v` inserts the entry — the state reached just
before eviction (`cmid`) holds exactly the key `k` — and then immediately
evicts that same entry via `removeLRU`, so the cache is empty afterwards and
`get k` returns the absent marker. -/
theorem claim_C10_capacity_zero_put_self_evicts {T : Type} [Inhabited T]
    (k : Int) (v : T) :
    ((LRUCache.init T 0).put k v).cache = [] ∧
    Rep ((LRUCache.init T 0).put k v) [] ∧
    (((LRUCache.init T 0).put k v).get k).2 = none ∧
    ∃ cmid : LRUCache T, cmid.cache.map Prod.fst = [k] ∧
      (LRUCache.init T 0).put k v = cmid.removeLRU := by
  have h1 := put_sim (rep_init T 0) k v
  have hcond : ((([] : List (Int × T)).length : Int) + 1 >
      (LRUCache.init T 0).capacity) := by
    show ((0 : Nat) : Int) + 1 > 0
    norm_num
  have habs : absPut (LRUCache.init T 0).capacity [] k v = [] := by
    unfold absPut
    rw [show mapGet ([] : List (Int × T)) k = none from rfl, if_pos hcond]
    rfl
  rw [habs] at h1
  have hcache : ((LRUCache.init T 0).put k v).cache = [] := by
    have h2 : ((LRUCache.init T 0).put k v).cache.length = 0 := by
      rw [rep_length h1]
      rfl
    exact List.length_eq_zero.mp h2
  refine ⟨hcache, h1, ?_, ?_⟩
  · have hmg : mapGet ((LRUCache.init T 0).put k v).cache k = none := by
      rw [hcache]
      rfl
    unfold get
    rw [hmg]
  · refine ⟨LRUCache.addNode
      { LRUCache.init T 0 with
        cache := mapSet (LRUCache.init T 0).cache k
          (LRUCache.init T 0).nextId,
        nodes := (LRUCache.init T 0).nodes ++
          [((LRUCache.init T 0).nextId, ⟨k, v, none, none⟩)],
        nextId := (LRUCache.init T 0).nextId + 1 }
      (LRUCache.init T 0).nextId, ?_, ?_⟩
    · rfl
    · rfl

/-- C1: for every cache constructed with a positive integer capacity and
every finite sequence of `put` calls applied to it, the number of distinct
keys held in the cache never exceeds the configured capacity.  Since the
sequence of calls is arbitrary, this bounds the state after each `put` of
any sequence (every prefix is itself a sequence). -/
theorem claim_C1_capacity_invariant {T : Type} [Inhabited T] (cap : Int)
    (hcap : 0 < cap) (ops : List (Int × T)) :
    (((putList (init T cap) ops).cache.map Prod.fst).toFinset.card : Int) ≤
      cap := by
  obtain ⟨es2, hrep, _, hlen⟩ :=
    putList_rep ops (rep_init T cap) rfl (by simpa using hcap.le)
  have h1 := List.toFinset_card_le
    ((putList (init T cap) ops).cache.map Prod.fst)
  rw [List.length_map] at h1
  rw [rep_length hrep] at h1
  calc ((((putList (init T cap) ops).cache.map Prod.fst).toFinset.card : Nat)
      : Int) ≤ (es2.length : Int) := by exact_mod_cast h1
    _ ≤ cap := hlen

theorem claim_C1_capacity_invariant_witness :
    (((putList (init Int 2) [(1, 10), (2, 20), (3, 30)]).cache.map
        Prod.fst).toFinset.card : Int) ≤ 2 :=
  claim_C1_capacity_invariant 2 (by norm_num) [(1, 10), (2, 20), (3, 30)]

/-- C4: in every cache reachable from a freshly constructed cache of
positive capacity by `get` and `put` calls, the key→node index and the
recency sequence hold exactly the same entries: there is a list `L` of node
ids such that the doubly linked sequence from the head sentinel to the tail
sentinel passes exactly through `L` (`Chain`), every index binding points to
a node of `L` registered under its key and vice versa (`MapOk`), the index
and the sequence have equal sizes, and the sentinels are still the boundary
nodes (`Chain` pins them as first and last, with outward pointers `none`)
and hold no live entry (no index binding points to them). -/
theorem claim_C4_index_matches_sequence {T : Type} [Inhabited T] {cap : Int}
    (_hcap : 0 < cap) {c : LRUCache T}
    (h : ReachableFrom (init T cap) c) :
    ∃ L, Chain c L ∧ MapOk c L ∧ c.cache.length = L.length ∧
      ∀ p ∈ c.cache, p.2 ≠ c.head ∧ p.2 ≠ c.tail := by
  obtain ⟨es, hheap, L, hch, hmap, hag⟩ := reachable_rep h
  refine ⟨L, hch, hmap, mapOk_length (chain_nodup hch) hmap, ?_⟩
  intro p hp
  obtain ⟨hmem, _⟩ := hmap.2.1 p hp
  have hnd := hch.2.1
  constructor
  · intro heq
    have h3 := List.Nodup.of_append_left hnd
    exact (List.nodup_cons.mp h3).1 (heq ▸ hmem)
  · intro heq
    have h4 := List.disjoint_of_nodup_append hnd
    exact h4 (List.mem_cons_of_mem _ hmem) (List.mem_singleton.mpr heq)

theorem claim_C4_index_matches_sequence_witness :
    ∃ L, Chain ((init Int 2).put 1 10) L ∧
      MapOk ((init Int 2).put 1 10) L ∧
      ((init Int 2).put 1 10).cache.length = L.length ∧
      ∀ p ∈ ((init Int 2).put 1 10).cache,
        p.2 ≠ ((init Int 2).put 1 10).head ∧
        p.2 ≠ ((init Int 2).put 1 10).tail :=
  claim_C4_index_matches_sequence (by norm_num)
    (ReachableFrom.put_step 1 10 ReachableFrom.refl)

/-- The call sequence `put(ks 1, vs 1), ..., put(ks n, vs n)`. -/
def putSeq (c : LRUCache T) (ks : Nat → Int) (vs : Nat → T) : Nat → LRUCache T
  | 0 => c
  | n + 1 => (putSeq c ks vs n).put (ks (n + 1)) (vs (n + 1))

/-- The entry list `[(ks n, vs n), ..., (ks lo, vs lo)]` (empty when
`n < lo`): the abstract state after `put(ks lo, _), ..., put(ks n, _)` with
no intervening evictions. -/
def seg (ks : Nat → Int) (vs : Nat → T) (lo : Nat) : Nat → List (Int × T)
  | 0 => []
  | n + 1 =>
      if n + 1 < lo then [] else (ks (n + 1), vs (n + 1)) :: seg ks vs lo n

theorem seg_zero (ks : Nat → Int) (vs : Nat → T) (lo : Nat) :
    seg ks vs lo 0 = [] := rfl

theorem seg_succ (ks : Nat → Int) (vs : Nat → T) (lo n : Nat) :
    seg ks vs lo (n + 1) =
      if n + 1 < lo then [] else (ks (n + 1), vs (n + 1)) :: seg ks vs lo n :=
  rfl

theorem seg_length (ks : Nat → Int) (vs : Nat → T) (lo : Nat) (hlo : 1 ≤ lo) :
    ∀ n, (seg ks vs lo n).length = n + 1 - lo
  | 0 => by
      rw [seg_zero ks vs lo]
      simp only [List.length_nil]
      omega
  | n + 1 => by
      rw [seg_succ ks vs lo n]
      by_cases h : n + 1 < lo
      · rw [if_pos h]
        simp only [List.length_nil]
        omega
      · rw [if_neg h]
        simp only [List.length_cons]
        rw [seg_length ks vs lo hlo n]
        omega

theorem seg_mem (ks : Nat → Int) (vs : Nat → T) (lo : Nat) :
    ∀ n, ∀ p ∈ seg ks vs lo n, ∃ j, lo ≤ j ∧ j ≤ n ∧ p = (ks j, vs j)
  | 0 => by
      intro p hp
      rw [seg_zero ks vs lo] at hp
      exact absurd hp (List.not_mem_nil p)
  | n + 1 => by
      intro p hp
      rw [seg_succ ks vs lo n] at hp
      by_cases h : n + 1 < lo
      · rw [if_pos h] at hp
        exact absurd hp (List.not_mem_nil p)
      · rw [if_neg h] at hp
        rcases List.mem_cons.mp hp with rfl | hp2
        · exact ⟨n + 1, by omega, le_refl _, rfl⟩
        · obtain ⟨j, h1, h2, h3⟩ := seg_mem ks vs lo n p hp2
          exact ⟨j, h1, by omega, h3⟩

theorem seg_mem_self (ks : Nat → Int) (vs : Nat → T) {lo : Nat}
    (hlo : 1 ≤ lo) :
    ∀ n i, lo ≤ i → i ≤ n → (ks i, vs i) ∈ seg ks vs lo n
  | 0, i, h1, h2 => by omega
  | n + 1, i, h1, h2 => by
      rw [seg_succ ks vs lo n, if_neg (by omega : ¬n + 1 < lo)]
      by_cases hi : i = n + 1
      · subst hi
        exact List.mem_cons_self _ _
      · have h3 : i ≤ n := by omega
        exact List.mem_cons_of_mem _ (seg_mem_self ks vs hlo n i h1 h3)

theorem seg_eq_nil (ks : Nat → Int) (vs : Nat → T) {lo : Nat} :
    ∀ n, n < lo → seg ks vs lo n = []
  | 0, _ => rfl
  | n + 1, h => by
      rw [seg_succ ks vs lo n, if_pos h]

theorem seg_split (ks : Nat → Int) (vs : Nat → T) {lo : Nat}
    (hlo : 1 ≤ lo) :
    ∀ n, lo ≤ n → seg ks vs lo n = seg ks vs (lo + 1) n ++ [(ks lo, vs lo)]
  | 0, h => by omega
  | n + 1, h => by
      rw [seg_succ ks vs lo n, if_neg (by omega : ¬n + 1 < lo),
        seg_succ ks vs (lo + 1) n]
      by_cases h2 : lo = n + 1
      · subst h2
        rw [if_pos (by omega : n + 1 < n + 1 + 1)]
        rw [seg_eq_nil ks vs n (by omega : n < n + 1)]
        rfl
      · have h3 : lo ≤ n := by omega
        rw [if_neg (by omega : ¬n + 1 < lo + 1)]
        rw [seg_split ks vs hlo n h3]
        rfl

theorem putSeq_rep {T : Type} [Inhabited T] (N : Nat) (ks : Nat → Int)
    (vs : Nat → T)
    (hinj : ∀ i j, 1 ≤ i → i ≤ N + 1 → 1 ≤ j → j ≤ N + 1 →
      ks i = ks j → i = j) :
    ∀ n, n ≤ N →
      Rep (putSeq (init T (N : Int)) ks vs n) (seg ks vs 1 n) ∧
      (putSeq (init T (N : Int)) ks vs n).capacity = (N : Int)
  | 0, _ => ⟨rep_init T (N : Int), rfl⟩
  | n + 1, hn => by
      obtain ⟨ih, ihcap⟩ := putSeq_rep N ks vs hinj n (by omega)
      have hnone : mapGet (seg ks vs 1 n) (ks (n + 1)) = none := by
        rw [mapGet_eq_none_iff]
        intro hmem
        obtain ⟨p, hp, hfst⟩ := List.mem_map.mp hmem
        obtain ⟨j, h1, h2, h3⟩ := seg_mem ks vs 1 n p hp
        rw [h3] at hfst
        have hj : j = n + 1 :=
          hinj j (n + 1) h1 (by omega) (by omega) (by omega) hfst
        omega
      have h1 := put_sim ih (ks (n + 1)) (vs (n + 1))
      rw [ihcap] at h1
      have hlen : (seg ks vs 1 n).length = n := by
        rw [seg_length ks vs 1 (le_refl 1) n]
        omega
      have hcond : ¬(((seg ks vs 1 n).length : Int) + 1 > (N : Int)) := by
        rw [hlen]
        omega
      have habs : absPut (N : Int) (seg ks vs 1 n) (ks (n + 1))
          (vs (n + 1)) = seg ks vs 1 (n + 1) := by
        unfold absPut
        rw [hnone, if_neg hcond, seg_succ ks vs 1 n,
          if_neg (by omega : ¬n + 1 < 1)]
      rw [habs] at h1
      refine ⟨h1, ?_⟩
      show ((putSeq (init T (N : Int)) ks vs n).put (ks (n + 1))
        (vs (n + 1))).capacity = (N : Int)
      rw [put_capacity, ihcap]

/-- C2: for every capacity N ≥ 2 and pairwise-distinct keys
`ks 1, ..., ks (N+1)`, the sequence `put(ks 1, vs 1), ..., put(ks N, vs N)`,
then `get(ks 1)`, then `put(ks (N+1), vs (N+1))` evicts exactly `ks 2` (the
least-recently-used untouched key): afterwards `ks 2` is absent from the
index, every other `ks i` (1 ≤ i ≤ N+1, i ≠ 2) is still present — in
particular `ks 1` — and the cache holds exactly N entries. -/
theorem claim_C2_recency_correctness {T : Type} [Inhabited T] (N : Nat)
    (hN : 2 ≤ N) (ks : Nat → Int) (vs : Nat → T)
    (hinj : ∀ i j, 1 ≤ i → i ≤ N + 1 → 1 ≤ j → j ≤ N + 1 →
      ks i = ks j → i = j) :
    mapGet ((((putSeq (init T (N : Int)) ks vs N).get (ks 1)).1.put
        (ks (N + 1)) (vs (N + 1))).cache) (ks 2) = none ∧
    (∀ i, 1 ≤ i → i ≤ N + 1 → i ≠ 2 →
      (mapGet ((((putSeq (init T (N : Int)) ks vs N).get (ks 1)).1.put
        (ks (N + 1)) (vs (N + 1))).cache) (ks i)).isSome) ∧
    (((putSeq (init T (N : Int)) ks vs N).get (ks 1)).1.put
        (ks (N + 1)) (vs (N + 1))).cache.length = N := by
  obtain ⟨hrepN, hcapN⟩ := putSeq_rep N ks vs hinj N (le_refl N)
  have hsplit1 : seg ks vs 1 N = seg ks vs 2 N ++ [(ks 1, vs 1)] :=
    seg_split ks vs (le_refl 1) N (by omega)
  have hk1notin : ks 1 ∉ (seg ks vs 2 N).map Prod.fst := by
    intro hmem
    obtain ⟨p, hp, hfst⟩ := List.mem_map.mp hmem
    obtain ⟨j, h1, h2, h3⟩ := seg_mem ks vs 2 N p hp
    rw [h3] at hfst
    have hj : j = 1 :=
      hinj j 1 (by omega) (by omega) (by omega) (by omega) hfst
    omega
  have hget1 : mapGet (seg ks vs 1 N) (ks 1) = some (vs 1) := by
    rw [hsplit1]
    exact mapGet_prefix_cons hk1notin
  have hdel1 : mapDelete (seg ks vs 1 N) (ks 1) = seg ks vs 2 N := by
    rw [hsplit1, mapDelete_prefix_cons hk1notin]
    simp
  have hg := get_sim hrepN (ks 1)
  have habsget : absGet (seg ks vs 1 N) (ks 1) =
      ((ks 1, vs 1) :: seg ks vs 2 N, some (vs 1)) := by
    unfold absGet
    rw [hget1, hdel1]
  rw [habsget] at hg
  have hcapg : ((putSeq (init T (N : Int)) ks vs N).get (ks 1)).1.capacity =
      (N : Int) := by
    rw [get_capacity, hcapN]
  have hnone2 : mapGet ((ks 1, vs 1) :: seg ks vs 2 N) (ks (N + 1)) =
      none := by
    rw [mapGet_eq_none_iff]
    intro hmem
    simp only [List.map_cons, List.mem_cons] at hmem
    rcases hmem with h2 | h2
    · have h0 : N + 1 = 1 :=
        hinj (N + 1) 1 (by omega) (by omega) (by omega) (by omega) h2
      omega
    · obtain ⟨p, hp, hfst⟩ := List.mem_map.mp h2
      obtain ⟨j, hj1, hj2, hj3⟩ := seg_mem ks vs 2 N p hp
      rw [hj3] at hfst
      have hj : j = N + 1 :=
        hinj j (N + 1) (by omega) (by omega) (by omega) (by omega) hfst
      omega
  have hlen2 : (((ks 1, vs 1) :: seg ks vs 2 N).length : Int) = (N : Int) := by
    rw [List.length_cons, seg_length ks vs 2 (by omega) N]
    omega
  have hp2 := put_sim hg.1 (ks (N + 1)) (vs (N + 1))
  rw [hcapg] at hp2
  have hsplit2 : seg ks vs 2 N = seg ks vs 3 N ++ [(ks 2, vs 2)] :=
    seg_split ks vs (by omega) N hN
  have hcond : ((((ks 1, vs 1) :: seg ks vs 2 N).length : Int) + 1 >
      (N : Int)) := by
    rw [hlen2]
    omega
  have habsput : absPut (N : Int) ((ks 1, vs 1) :: seg ks vs 2 N)
      (ks (N + 1)) (vs (N + 1)) =
      (ks (N + 1), vs (N + 1)) :: (ks 1, vs 1) :: seg ks vs 3 N := by
    unfold absPut
    rw [hnone2, if_pos hcond, hsplit2]
    rw [show (ks (N + 1), vs (N + 1)) :: (ks 1, vs 1) ::
        (seg ks vs 3 N ++ [(ks 2, vs 2)]) =
        ((ks (N + 1), vs (N + 1)) :: (ks 1, vs 1) :: seg ks vs 3 N) ++
          [(ks 2, vs 2)] from by simp]
    rw [List.dropLast_concat]
  rw [habsput] at hp2
  refine ⟨?_, ?_, ?_⟩
  · apply rep_mapGet_none_of_abs hp2
    rw [mapGet_eq_none_iff]
    intro hmem
    simp only [List.map_cons, List.mem_cons] at hmem
    rcases hmem with h2 | h2 | h2
    · have h0 : 2 = N + 1 :=
        hinj 2 (N + 1) (by omega) (by omega) (by omega) (by omega) h2
      omega
    · have h0 : 2 = 1 :=
        hinj 2 1 (by omega) (by omega) (by omega) (by omega) h2
      omega
    · obtain ⟨p, hp, hfst⟩ := List.mem_map.mp h2
      obtain ⟨j, hj1, hj2, hj3⟩ := seg_mem ks vs 3 N p hp
      rw [hj3] at hfst
      have hj : j = 2 :=
        hinj j 2 (by omega) (by omega) (by omega) (by omega) hfst
      omega
  · intro i hi1 hi2 hi3
    apply rep_mapGet_isSome_of_mem hp2
    simp only [List.map_cons, List.mem_cons]
    by_cases hiN : i = N + 1
    · left
      rw [hiN]
    · by_cases hi1' : i = 1
      · right
        left
        rw [hi1']
      · right
        right
        have h3i : 3 ≤ i := by omega
        have hiN' : i ≤ N := by omega
        exact List.mem_map.mpr
          ⟨(ks i, vs i), seg_mem_self ks vs (by omega) N i h3i hiN', rfl⟩
  · rw [rep_length hp2]
    simp only [List.length_cons]
    rw [seg_length ks vs 3 (by omega) N]
    omega

theorem claim_C2_recency_correctness_witness :
    mapGet ((((putSeq (init Int 2) (fun i => (i : Int)) (fun i => (i : Int))
        2).get 1).1.put 3 3).cache) 2 = none ∧
    (∀ i, 1 ≤ i → i ≤ 3 → i ≠ 2 →
      (mapGet ((((putSeq (init Int 2) (fun i => (i : Int))
        (fun i => (i : Int)) 2).get 1).1.put 3 3).cache)
        ((i : Nat) : Int)).isSome) ∧
    (((putSeq (init Int 2) (fun i => (i : Int)) (fun i => (i : Int))
        2).get 1).1.put 3 3).cache.length = 2 :=
  claim_C2_recency_correctness 2 (by omega) (fun i => (i : Int))
    (fun i => (i : Int))
    (fun i j h1 h2 h3 h4 heq => by
      exact_mod_cast show (i : Int) = (j : Int) from heq)

end LRUCache
